import Mathlib

/-!
Verification of the pseudo-diff patch engine in `src/tools/patch_tool.py`.

Python strings are modelled as `List Char` (`Str`), Python lists as Lean
lists, Python dicts as association lists in insertion order, and raised
`DiffError`s as the `Except.error` constructor.  All definitions follow the
Python source line by line; fuel arguments replace Python `while` loops so
that every definition is structurally recursive and kernel-computable.
-/

set_option autoImplicit false

namespace PatchTool

/-- A Python string, modelled as its list of characters. -/
abbrev Str := List Char

/-- The characters of a string literal (for writing `Str` constants). -/
def chars (s : String) : Str := s.data

/-- A raised `DiffError`, carrying its message. -/
abbrev DiffError := Str

/-- Python's whitespace test used by `str.strip` / `str.rstrip`. -/
def isPySpace (c : Char) : Bool :=
  c = ' ' || c = '\t' || c = '\n' || c = '\r' || c = '\x0b' || c = '\x0c'

/-- Python `s.lstrip()`. -/
def lstrip (s : Str) : Str := s.dropWhile isPySpace

/-- Python `s.rstrip()`: drop trailing whitespace. -/
def rstrip (s : Str) : Str := (s.reverse.dropWhile isPySpace).reverse

/-- Python `s.strip()`. -/
def strip (s : Str) : Str := rstrip (lstrip s)

/-- Python `text.split("\n")`: always non-empty, keeps empty pieces. -/
def splitNl : Str → List Str
  | [] => [[]]
  | c :: rest =>
    if c = '\n' then [] :: splitNl rest
    else
      match splitNl rest with
      | [] => [[c]]
      | l :: ls => (c :: l) :: ls

/-- Python `"\n".join(lines)`. -/
def joinNl : List Str → Str
  | [] => []
  | [l] => l
  | l :: ls => l ++ '\n' :: joinNl ls

@[simp] theorem splitNl_ne_nil (s : Str) : splitNl s ≠ [] := by
  cases s with
  | nil => simp [splitNl]
  | cons c rest =>
    simp only [splitNl]
    split
    · simp
    · cases splitNl rest <;> simp

theorem joinNl_cons (l : Str) (ls : List Str) (h : ls ≠ []) :
    joinNl (l :: ls) = l ++ '\n' :: joinNl ls := by
  cases ls with
  | nil => exact absurd rfl h
  | cons a as => rfl

/-- Splitting on newlines and joining again is the identity. -/
theorem joinNl_splitNl (s : Str) : joinNl (splitNl s) = s := by
  induction s with
  | nil => rfl
  | cons c rest ih =>
    simp only [splitNl]
    by_cases h : c = '\n'
    · subst h
      rw [if_pos rfl, joinNl_cons _ _ (splitNl_ne_nil rest), ih]
      rfl
    · rw [if_neg h]
      cases hs : splitNl rest with
      | nil => exact absurd hs (splitNl_ne_nil rest)
      | cons l ls =>
        rw [hs] at ih
        cases ls with
        | nil => simpa [joinNl] using ih
        | cons m ms =>
          rw [joinNl_cons _ _ (by simp)]
          rw [joinNl_cons _ _ (by simp)] at ih
          rw [← ih]
          simp

/-- Python `s.endswith("\n")` for our character-list strings. -/
def endsNl (s : Str) : Bool := s.getLast? = some '\n'

/-- `lines[i : i+n]` (Python slice with non-negative bounds). -/
def slice (lines : List Str) (i n : Nat) : List Str := (lines.drop i).take n

/-- Linear search of Python `for i in range(start, start+count): if p i: return i`. -/
def findFirst (p : Nat → Bool) : Nat → Nat → Option Nat
  | _, 0 => none
  | start, count + 1 => if p start then some start else findFirst p (start + 1) count

theorem findFirst_eq_some {p : Nat → Bool} :
    ∀ {start count j : Nat}, findFirst p start count = some j →
      start ≤ j ∧ j < start + count ∧ p j = true ∧
        ∀ k, start ≤ k → k < j → p k = false := by
  intro start count
  induction count generalizing start with
  | zero => intro j h; simp [findFirst] at h
  | succ n ih =>
    intro j h
    simp only [findFirst] at h
    by_cases hp : p start = true
    · rw [if_pos hp] at h
      obtain rfl : start = j := by simpa using h
      exact ⟨le_refl _, by omega, hp, fun k hk hk' => absurd hk' (by omega)⟩
    · rw [if_neg (by simpa using hp)] at h
      obtain ⟨h1, h2, h3, h4⟩ := ih h
      refine ⟨by omega, by omega, h3, fun k hk hk' => ?_⟩
      rcases Nat.eq_or_lt_of_le hk with rfl | hlt
      · simpa using hp
      · exact h4 k hlt hk'

theorem findFirst_eq_none {p : Nat → Bool} :
    ∀ {start count : Nat}, findFirst p start count = none →
      ∀ k, start ≤ k → k < start + count → p k = false := by
  intro start count
  induction count generalizing start with
  | zero => intro _ k hk hk'; omega
  | succ n ih =>
    intro h k hk hk'
    simp only [findFirst] at h
    by_cases hp : p start = true
    · rw [if_pos hp] at h; exact absurd h (by simp)
    · rw [if_neg (by simpa using hp)] at h
      rcases Nat.eq_or_lt_of_le hk with rfl | hlt
      · simpa using hp
      · exact ih h k hlt (by omega)

theorem findFirst_of_spec {p : Nat → Bool} {start count j : Nat}
    (h1 : start ≤ j) (h2 : j < start + count) (h3 : p j = true)
    (h4 : ∀ k, start ≤ k → k < j → p k = false) :
    findFirst p start count = some j := by
  induction count generalizing start with
  | zero => omega
  | succ n ih =>
    simp only [findFirst]
    rcases Nat.eq_or_lt_of_le h1 with rfl | hlt
    · rw [if_pos h3]
    · rw [if_neg (by simp [h4 start (le_refl _) hlt])]
      exact ih hlt (by omega) (fun k hk => h4 k (by omega))

theorem findFirst_none_of_spec {p : Nat → Bool} {start count : Nat}
    (h : ∀ k, start ≤ k → k < start + count → p k = false) :
    findFirst p start count = none := by
  induction count generalizing start with
  | zero => rfl
  | succ n ih =>
    simp only [findFirst]
    rw [if_neg (by simp [h start (le_refl _) (by omega)])]
    exact ih (fun k hk hk' => h k (by omega) (by omega))

/-- Exact-slice candidate test of `find_context_core` (fuzz tier 0). -/
def ctxEq (lines ctx : List Str) (i : Nat) : Bool :=
  decide (slice lines i ctx.length = ctx)

/-- Trailing-whitespace-insensitive candidate test (fuzz tier 1). -/
def ctxEqR (lines ctx : List Str) (i : Nat) : Bool :=
  decide ((slice lines i ctx.length).map rstrip = ctx.map rstrip)

/-- Fully-trimmed candidate test (fuzz tier 100). -/
def ctxEqS (lines ctx : List Str) (i : Nat) : Bool :=
  decide ((slice lines i ctx.length).map strip = ctx.map strip)

/--
`find_context_core` from `patch_tool.py`: first exact slice equality, then
right-trimmed equality (fuzz 1), then fully trimmed equality (fuzz 100);
empty context matched immediately at `start`.  Python's `return -1, 0` is
modelled as `none`; fuzz values are `Int` because `find_context` below can
produce a `-1` fuzz.
-/
def find_context_core (lines ctx : List Str) (start : Nat) : Option (Nat × Int) :=
  if ctx = [] then some (start, 0)
  else
    match findFirst (ctxEq lines ctx) start (lines.length - ctx.length + 1 - start) with
    | some i => some (i, 0)
    | none =>
      match findFirst (ctxEqR lines ctx) start (lines.length - ctx.length + 1 - start) with
      | some i => some (i, 1)
      | none =>
        match findFirst (ctxEqS lines ctx) start (lines.length - ctx.length + 1 - start) with
        | some i => some (i, 100)
        | none => none

/--
`find_context` from `patch_tool.py`.  With `eof` set it first searches a
window near the end of `lines` and accepts only a match ending exactly at
`lines.length`; otherwise it retries from `start`, adding 10000 fuzz to a
retry match that does not end at the file end (Python's conditional
expression yields fuzz `-1` for a retry match that does end there).
-/
def find_context (lines ctx : List Str) (start : Nat) (eof : Bool) : Option (Nat × Int) :=
  if eof then
    match find_context_core lines ctx (max start (lines.length - ctx.length - 5)) with
    | some (i, f) =>
      if i + ctx.length = lines.length then some (i, f)
      else
        match find_context_core lines ctx start with
        | some (j, g) =>
          if j + ctx.length ≠ lines.length then some (j, g + 10000) else some (j, -1)
        | none => none
    | none =>
      match find_context_core lines ctx start with
      | some (j, g) =>
        if j + ctx.length ≠ lines.length then some (j, g + 10000) else some (j, -1)
      | none => none
  else find_context_core lines ctx start

theorem slice_length_le {lines ctx : List Str} {i : Nat}
    (h : (slice lines i ctx.length).length = ctx.length) (hne : ctx ≠ []) :
    i + ctx.length ≤ lines.length := by
  have hc : ctx.length ≠ 0 := by simpa using List.length_eq_zero.not.mpr hne
  simp only [slice, List.length_take, List.length_drop] at h
  omega

theorem ctxEq_le {lines ctx : List Str} {i : Nat}
    (h : ctxEq lines ctx i = true) (hne : ctx ≠ []) :
    i + ctx.length ≤ lines.length := by
  have := of_decide_eq_true h
  exact slice_length_le (by rw [this]) hne

theorem ctxEqR_le {lines ctx : List Str} {i : Nat}
    (h : ctxEqR lines ctx i = true) (hne : ctx ≠ []) :
    i + ctx.length ≤ lines.length := by
  have := of_decide_eq_true h
  have hl : (slice lines i ctx.length).length = ctx.length := by
    have := congrArg List.length this
    simpa using this
  exact slice_length_le hl hne

theorem ctxEqS_le {lines ctx : List Str} {i : Nat}
    (h : ctxEqS lines ctx i = true) (hne : ctx ≠ []) :
    i + ctx.length ≤ lines.length := by
  have := of_decide_eq_true h
  have hl : (slice lines i ctx.length).length = ctx.length := by
    have := congrArg List.length this
    simpa using this
  exact slice_length_le hl hne

theorem find_context_core_start_le {lines ctx : List Str} {start j : Nat} {g : Int}
    (h : find_context_core lines ctx start = some (j, g)) : start ≤ j := by
  unfold find_context_core at h
  split at h
  · injection h with h'
    injection h' with h1 _
    omega
  · split at h
    · next h0 =>
      injection h with h'
      injection h' with h1 _
      subst h1
      exact (findFirst_eq_some h0).1
    · split at h
      · next h1 =>
        injection h with h'
        injection h' with ha _
        subst ha
        exact (findFirst_eq_some h1).1
      · split at h
        · next h2 =>
          injection h with h'
          injection h' with ha _
          subst ha
          exact (findFirst_eq_some h2).1
        · exact absurd h (by simp)

/--
Restricting the search start of `find_context_core` to a later position that
is still at or before the found index returns the same result.
-/
theorem find_context_core_mono {lines ctx : List Str} {start w j : Nat} {g : Int}
    (h : find_context_core lines ctx start = some (j, g))
    (hsw : start ≤ w) (hwj : w ≤ j) :
    find_context_core lines ctx w = some (j, g) := by
  unfold find_context_core at h ⊢
  split at h
  · next hc =>
    rw [if_pos hc]
    injection h with h'
    injection h' with h1 h2
    subst h2
    have hwj' : w = j := by omega
    rw [hwj']
  · next hc =>
    rw [if_neg hc]
    set bound := lines.length - ctx.length + 1 with hbound
    have step :
        ∀ p : Nat → Bool, ∀ {i : Nat},
          findFirst p start (bound - start) = some i → w ≤ i →
          findFirst p w (bound - w) = some i := by
      intro p i hp hwi
      obtain ⟨h1, h2, h3, h4⟩ := findFirst_eq_some hp
      have hib : i < bound := by omega
      exact findFirst_of_spec hwi (by omega) h3 (fun k hk hk' => h4 k (by omega) hk')
    have stepN :
        ∀ p : Nat → Bool,
          findFirst p start (bound - start) = none →
          findFirst p w (bound - w) = none := by
      intro p hp
      exact findFirst_none_of_spec (fun k hk hk' =>
        findFirst_eq_none hp k (by omega) (by omega))
    split at h
    · next h0 =>
      injection h with h'
      injection h' with h1 h2
      subst h1; subst h2
      rw [step _ h0 hwj]
    · next h0 =>
      rw [stepN _ h0]
      split at h
      · next h1 =>
        injection h with h'
        injection h' with ha hb
        subst ha; subst hb
        rw [step _ h1 hwj]
      · next h1 =>
        rw [stepN _ h1]
        split at h
        · next h2 =>
          injection h with h'
          injection h' with ha hb
          subst ha; subst hb
          rw [step _ h2 hwj]
        · exact absurd h (by simp)

/--
If the unrestricted search finds a match ending exactly at the end of the
file, the end-window search of the `eof` branch finds the same match.
-/
theorem find_context_core_at_end {lines ctx : List Str} {start j : Nat} {g : Int}
    (h : find_context_core lines ctx start = some (j, g))
    (hend : j + ctx.length = lines.length) :
    find_context_core lines ctx (max start (lines.length - ctx.length - 5)) = some (j, g) := by
  have hsj : start ≤ j := find_context_core_start_le h
  by_cases hc : ctx = []
  · subst hc
    unfold find_context_core at h ⊢
    rw [if_pos rfl] at h ⊢
    injection h with h'
    injection h' with h1 h2
    subst h1
    subst h2
    simp only [List.length_nil] at hend ⊢
    have hmax : max start (lines.length - 0 - 5) = start := by omega
    rw [hmax]
  · exact find_context_core_mono h (le_max_left _ _) (by omega)

/--
C3: for every call of `find_context` with `isEOF` true, the search is first
restricted to a window near the end of the file (start `max start
(len - len ctx - 5)`) and that result is returned only if the match ends
exactly at `lines.length`; otherwise the search is retried unrestricted from
`start`, any match found by the retry gets a 10000 penalty added to its
fuzz, and if the retry finds nothing, not-found is reported.
-/
theorem claim_C3_eof_search (lines ctx : List Str) (start : Nat) :
    (∀ i f, find_context_core lines ctx (max start (lines.length - ctx.length - 5)) = some (i, f) →
        i + ctx.length = lines.length →
        find_context lines ctx start true = some (i, f)) ∧
    ((find_context_core lines ctx (max start (lines.length - ctx.length - 5)) = none ∨
      ∀ i f, find_context_core lines ctx (max start (lines.length - ctx.length - 5)) = some (i, f) →
          i + ctx.length ≠ lines.length) →
      (find_context_core lines ctx start = none → find_context lines ctx start true = none) ∧
      (∀ j g, find_context_core lines ctx start = some (j, g) →
          find_context lines ctx start true = some (j, g + 10000))) := by
  constructor
  · intro i f hw hend
    simp only [find_context, if_true, hw, if_pos hend]
  · intro hfail
    constructor
    · intro hr
      simp only [find_context, if_true]
      cases hw : find_context_core lines ctx (max start (lines.length - ctx.length - 5)) with
      | none => simp only [hr]
      | some p =>
        obtain ⟨i, f⟩ := p
        have hne : ¬ i + ctx.length = lines.length := by
          cases hfail with
          | inl h0 => rw [h0] at hw; exact absurd hw (by simp)
          | inr h0 => exact h0 i f hw
        simp only [if_neg hne, hr]
    · intro j g hr
      have hne : j + ctx.length ≠ lines.length := by
        intro he
        have hw := find_context_core_at_end hr he
        cases hfail with
        | inl h0 => rw [h0] at hw; exact absurd hw (by simp)
        | inr h0 => exact (h0 j g hw) he
      simp only [find_context, if_true]
      cases hw : find_context_core lines ctx (max start (lines.length - ctx.length - 5)) with
      | none => simp only [hr, if_pos hne]
      | some p =>
        obtain ⟨i, f⟩ := p
        have hne' : ¬ i + ctx.length = lines.length := by
          cases hfail with
          | inl h0 => rw [h0] at hw; exact absurd hw (by simp)
          | inr h0 => exact h0 i f hw
        simp only [if_neg hne', hr, if_pos hne]

/-- Witness for C3 at a concrete input: a one-line file whose context matches
exactly at the end window. -/
theorem claim_C3_eof_search_witness :
    find_context [chars "a"] [chars "a"] 0 true = some (0, 0) :=
  (claim_C3_eof_search [chars "a"] [chars "a"] 0).1 0 0 (by decide) (by decide)

/-- `e.isErr = true` iff the computation raised a `DiffError`. -/
def isErr {α : Type _} : Except DiffError α → Bool
  | .error _ => true
  | .ok _ => false

/--
The `@@ <label>` locating block of `Parser._parse_update_file` (only reached
when `def_str.strip()` is non-blank): an exact scan of `lines[index:]` run
only when `def_str` does not occur in `lines[:index]`, then a
whitespace-stripped scan (fuzz `+1`) run only when the stripped label does
not occur among the stripped `lines[:index]`, else a `DiffError`.  Returns
the new scan index (one past the matched line) and the fuzz increment.
-/
def locate_marker (lines : List Str) (def_str : Str) (index : Nat) :
    Except DiffError (Nat × Nat) :=
  let r1 : Option Nat :=
    if def_str ∈ lines.take index then none
    else findFirst (fun i => decide (lines[i]? = some def_str)) index (lines.length - index)
  match r1 with
  | some i => .ok (i + 1, 0)
  | none =>
    let r2 : Option Nat :=
      if strip def_str ∈ (lines.take index).map strip then none
      else
        findFirst (fun i => decide ((lines[i]?).map strip = some (strip def_str))) index
          (lines.length - index)
    match r2 with
    | some i => .ok (i + 1, 1)
    | none => .error (chars "Context marker not found in original file")

theorem mem_drop_iff_getElem {l : List Str} {d : Str} {index : Nat} :
    d ∈ l.drop index ↔ ∃ i, index ≤ i ∧ i < l.length ∧ l[i]? = some d := by
  constructor
  · intro h
    obtain ⟨k, hk⟩ := List.mem_iff_getElem?.mp h
    rw [List.getElem?_drop] at hk
    have hlt : index + k < l.length := by
      by_contra hge
      rw [List.getElem?_eq_none (by omega)] at hk
      exact absurd hk (by simp)
    exact ⟨index + k, by omega, hlt, hk⟩
  · rintro ⟨i, h1, h2, h3⟩
    apply List.mem_iff_getElem?.mpr
    exact ⟨i - index, by rw [List.getElem?_drop]; rw [show index + (i - index) = i by omega]; exact h3⟩

theorem mem_map_drop_iff_getElem {l : List Str} {d : Str} {index : Nat}
    {f : Str → Str} :
    d ∈ (l.drop index).map f ↔ ∃ i, index ≤ i ∧ i < l.length ∧ (l[i]?).map f = some d := by
  constructor
  · intro h
    obtain ⟨k, hk⟩ := List.mem_iff_getElem?.mp h
    rw [List.getElem?_map, List.getElem?_drop] at hk
    have hlt : index + k < l.length := by
      by_contra hge
      rw [List.getElem?_eq_none (by omega)] at hk
      exact absurd hk (by simp)
    exact ⟨index + k, by omega, hlt, hk⟩
  · rintro ⟨i, h1, h2, h3⟩
    apply List.mem_iff_getElem?.mpr
    refine ⟨i - index, ?_⟩
    rw [List.getElem?_map, List.getElem?_drop, show index + (i - index) = i by omega]
    exact h3

/--
C4 (counterexample): with original lines `["x", "x"]`, scan position 1 and
non-blank label `"x"`, the label occurs in the remaining lines
(`lines[1:]`), yet the locator raises a `DiffError`, because the label also
occurs before the scan position and both search tiers are therefore skipped.
-/
theorem claim_C4_counterexample :
    isErr (locate_marker [chars "x", chars "x"] (chars "x") 1) = true ∧
    chars "x" ∈ ([chars "x", chars "x"].drop 1) ∧
    strip (chars "x") ≠ [] := by decide

/--
C4 (amended): for a non-blank `@@ <label>` marker, the parser searches the
remaining original lines by exact equality (fuzz 0) and then by
whitespace-stripped equality (fuzz +1), except that the exact tier is
skipped when the label already occurs before the scan position and the
stripped tier is skipped when the stripped label occurs among the stripped
earlier lines; a hard `DiffError` is raised exactly when no executed tier
finds the label.
-/
theorem claim_C4_marker_lookup (lines : List Str) (d : Str) (index : Nat) :
    (isErr (locate_marker lines d index) = true ↔
      ¬(d ∉ lines.take index ∧ d ∈ lines.drop index) ∧
      ¬(strip d ∉ (lines.take index).map strip ∧ strip d ∈ (lines.drop index).map strip)) ∧
    (d ∉ lines.take index → d ∈ lines.drop index →
      ∃ i, locate_marker lines d index = .ok (i, 0)) ∧
    (¬(d ∉ lines.take index ∧ d ∈ lines.drop index) →
      strip d ∉ (lines.take index).map strip → strip d ∈ (lines.drop index).map strip →
      ∃ i, locate_marker lines d index = .ok (i, 1)) := by
  have exact_scan :
      (findFirst (fun i => decide (lines[i]? = some d)) index (lines.length - index) = none) ↔
        d ∉ lines.drop index := by
    constructor
    · intro hn hmem
      obtain ⟨i, h1, h2, h3⟩ := mem_drop_iff_getElem.mp hmem
      have := findFirst_eq_none hn i h1 (by omega)
      rw [decide_eq_false_iff_not] at this
      exact this h3
    · intro hnm
      apply findFirst_none_of_spec
      intro k hk hk'
      rw [decide_eq_false_iff_not]
      intro hkd
      exact hnm (mem_drop_iff_getElem.mpr ⟨k, hk, by omega, hkd⟩)
  have strip_scan :
      (findFirst (fun i => decide ((lines[i]?).map strip = some (strip d))) index
          (lines.length - index) = none) ↔
        strip d ∉ (lines.drop index).map strip := by
    constructor
    · intro hn hmem
      obtain ⟨i, h1, h2, h3⟩ := mem_map_drop_iff_getElem.mp hmem
      have := findFirst_eq_none hn i h1 (by omega)
      rw [decide_eq_false_iff_not] at this
      exact this h3
    · intro hnm
      apply findFirst_none_of_spec
      intro k hk hk'
      rw [decide_eq_false_iff_not]
      intro hkd
      exact hnm (mem_map_drop_iff_getElem.mpr ⟨k, hk, by omega, hkd⟩)
  have lt_of_get {i : Nat} (h : lines[i]? = some d) : i < lines.length := by
    by_contra hge
    rw [List.getElem?_eq_none (by omega)] at h
    exact absurd h (by simp)
  have lt_of_get_map {i : Nat} (h : (lines[i]?).map strip = some (strip d)) :
      i < lines.length := by
    by_contra hge
    rw [List.getElem?_eq_none (by omega)] at h
    exact absurd h (by simp)
  unfold locate_marker
  by_cases hpre : d ∈ lines.take index
  · rw [if_pos hpre]
    by_cases hpre2 : strip d ∈ (lines.take index).map strip
    · rw [if_pos hpre2]
      exact ⟨iff_of_true rfl ⟨fun h => h.1 hpre, fun h => h.1 hpre2⟩,
        fun h _ => absurd hpre h, fun _ h _ => absurd hpre2 h⟩
    · rw [if_neg hpre2]
      cases hf : findFirst (fun i => decide ((lines[i]?).map strip = some (strip d))) index
          (lines.length - index) with
      | none =>
        have hnm := strip_scan.mp hf
        exact ⟨iff_of_true rfl ⟨fun h => h.1 hpre, fun h => hnm h.2⟩,
          fun h _ => absurd hpre h, fun _ _ h => absurd h hnm⟩
      | some i =>
        have hmem : strip d ∈ (lines.drop index).map strip := by
          have hp := (findFirst_eq_some hf).2.2.1
          rw [decide_eq_true_eq] at hp
          exact mem_map_drop_iff_getElem.mpr
            ⟨i, (findFirst_eq_some hf).1, lt_of_get_map hp, hp⟩
        exact ⟨iff_of_false (by simp [isErr]) (fun h => h.2 ⟨hpre2, hmem⟩),
          fun h _ => absurd hpre h, fun _ _ _ => ⟨i + 1, rfl⟩⟩
  · rw [if_neg hpre]
    cases he : findFirst (fun i => decide (lines[i]? = some d)) index (lines.length - index) with
    | some i =>
      have hmem : d ∈ lines.drop index := by
        have hp := (findFirst_eq_some he).2.2.1
        rw [decide_eq_true_eq] at hp
        exact mem_drop_iff_getElem.mpr ⟨i, (findFirst_eq_some he).1, lt_of_get hp, hp⟩
      exact ⟨iff_of_false (by simp [isErr]) (fun h => h.1 ⟨hpre, hmem⟩),
        fun _ _ => ⟨i + 1, rfl⟩, fun h _ _ => absurd ⟨hpre, hmem⟩ h⟩
    | none =>
      have hnm := exact_scan.mp he
      by_cases hpre2 : strip d ∈ (lines.take index).map strip
      · rw [if_pos hpre2]
        exact ⟨iff_of_true rfl ⟨fun h => hnm h.2, fun h => h.1 hpre2⟩,
          fun _ h => absurd h hnm, fun _ h _ => absurd hpre2 h⟩
      · rw [if_neg hpre2]
        cases hf : findFirst (fun i => decide ((lines[i]?).map strip = some (strip d))) index
            (lines.length - index) with
        | none =>
          have hnm2 := strip_scan.mp hf
          exact ⟨iff_of_true rfl ⟨fun h => hnm h.2, fun h => hnm2 h.2⟩,
            fun _ h => absurd h hnm, fun _ _ h => absurd h hnm2⟩
        | some i =>
          have hmem : strip d ∈ (lines.drop index).map strip := by
            have hp := (findFirst_eq_some hf).2.2.1
            rw [decide_eq_true_eq] at hp
            exact mem_map_drop_iff_getElem.mpr
              ⟨i, (findFirst_eq_some hf).1, lt_of_get_map hp, hp⟩
          exact ⟨iff_of_false (by simp [isErr]) (fun h => h.2 ⟨hpre2, hmem⟩),
            fun _ h => absurd h hnm, fun _ _ _ => ⟨i + 1, rfl⟩⟩

/-- Witness for C4 (amended) at a concrete input: exact hit in the remaining
lines with no earlier occurrence. -/
theorem claim_C4_marker_lookup_witness :
    ∃ i, locate_marker [chars "a", chars "b"] (chars "b") 1 = .ok (i, 0) :=
  (claim_C4_marker_lookup [chars "a", chars "b"] (chars "b") 1).2.1 (by decide) (by decide)

/-- `ActionType` from `patch_tool.py`. -/
inductive ActionType
  | add
  | delete
  | update
deriving DecidableEq

/-- `Chunk` from `patch_tool.py`; `orig_index` is `Int` (Python int, default `-1`). -/
structure Chunk where
  orig_index : Int := -1
  del_lines : List Str := []
  ins_lines : List Str := []
deriving DecidableEq

/-- `PatchAction` from `patch_tool.py`. -/
structure PatchAction where
  type : ActionType
  new_file : Option Str := none
  chunks : List Chunk := []
  move_path : Option Str := none
deriving DecidableEq

/-- One insertion step of a stable insertion sort on `orig_index`: the new
element goes after all existing elements with `orig_index ≤` its own. -/
def insChunk : List Chunk → Chunk → List Chunk
  | [], c => [c]
  | d :: ds, c => if d.orig_index ≤ c.orig_index then d :: insChunk ds c else c :: d :: ds

/-- `sorted(action.chunks, key=lambda c: c.orig_index)`: a stable sort by
`orig_index` (Python's `sorted` is stable; a stable insertion sort computes
the same list). -/
def sortChunks (cs : List Chunk) : List Chunk := cs.foldl insChunk []

theorem mem_insChunk {x c : Chunk} : ∀ {l : List Chunk}, x ∈ insChunk l c ↔ x = c ∨ x ∈ l := by
  intro l
  induction l with
  | nil => simp [insChunk]
  | cons d ds ih =>
    simp only [insChunk]
    split
    · simp only [List.mem_cons, ih]
      tauto
    · simp only [List.mem_cons]

theorem mem_sortChunks {x : Chunk} {cs : List Chunk} : x ∈ sortChunks cs ↔ x ∈ cs := by
  suffices h : ∀ acc, x ∈ cs.foldl insChunk acc ↔ x ∈ acc ∨ x ∈ cs by
    have := h []
    simpa [sortChunks] using this
  induction cs with
  | nil => simp
  | cons c cs ih =>
    intro acc
    simp only [List.foldl_cons, ih, mem_insChunk, List.mem_cons]
    tauto

/--
The chunk-application loop of `_get_updated_file` (lines 440-487 of
`patch_tool.py`), over already-sorted chunks, carrying the accumulated
destination lines and the current original-file index.
-/
def applyChunks (orig_lines : List Str) (path : Str) :
    List Chunk → List Str → Nat → Except DiffError (List Str)
  | [], dest, orig_file_index => .ok (dest ++ orig_lines.drop orig_file_index)
  | chunk :: rest, dest, orig_file_index =>
    if (chunk.orig_index < 0 ∨ (orig_lines.length : Int) < chunk.orig_index) ∧
        ¬(chunk.orig_index = (orig_lines.length : Int) ∧ chunk.del_lines = []) then
      .error (chars "chunk orig_index is out of bounds")
    else if chunk.orig_index < (orig_file_index : Int) then
      .error (chars "overlapping or out-of-order chunks detected")
    else
      let oi := chunk.orig_index.toNat
      let dest' := dest ++ slice orig_lines orig_file_index (oi - orig_file_index) ++
        chunk.ins_lines
      if (orig_lines.length : Int) < chunk.orig_index + chunk.del_lines.length then
        .error (chars "deletion range exceeds original file length")
      else
        let original_deleted_section := slice orig_lines oi chunk.del_lines.length
        if original_deleted_section ≠ chunk.del_lines ∧
            original_deleted_section.map strip ≠ chunk.del_lines.map strip then
          .error (chars "expected deletions do not match file content")
        else
          applyChunks orig_lines path rest dest' (oi + chunk.del_lines.length)

/-- The trailing-newline reproduction step of `_get_updated_file`
(lines 495-505 of `patch_tool.py`). -/
def finalize (text : Str) (dest_lines : List Str) : Str :=
  let final_content := joinNl dest_lines
  if endsNl text ∧ ¬endsNl final_content ∧ final_content ≠ [] then
    final_content ++ ['\n']
  else if text = [] ∧ final_content ≠ [] ∧ ¬endsNl final_content then
    final_content ++ ['\n']
  else final_content

/-- `_get_updated_file` from `patch_tool.py`. -/
def get_updated_file (text : Str) (action : PatchAction) (path : Str) :
    Except DiffError Str :=
  if action.type ≠ ActionType.update then
    .error (chars "_get_updated_file called with non-update action")
  else
    match applyChunks (splitNl text) path (sortChunks action.chunks) [] 0 with
    | .error e => .error e
    | .ok dest_lines => .ok (finalize text dest_lines)

/--
Modelled from the claim's words (refinement reference): the original lines
with, for each chunk taken in order, the deleted lines removed at
`orig_index` and the inserted lines put in their place, every other line
unchanged and in order.
-/
def updatedLinesSpec (orig : List Str) : List Chunk → Nat → List Str
  | [], idx => orig.drop idx
  | c :: rest, idx =>
    slice orig idx (c.orig_index.toNat - idx) ++ c.ins_lines ++
      updatedLinesSpec orig rest (c.orig_index.toNat + c.del_lines.length)

/-- Well-formedness of a sorted chunk list against the original lines:
in-range, non-overlapping, and deleted lines exactly matching the original
at the computed offsets. -/
def chunksOK (orig : List Str) : Nat → List Chunk → Bool
  | _, [] => true
  | idx, c :: rest =>
    decide ((idx : Int) ≤ c.orig_index) &&
    decide (c.orig_index + c.del_lines.length ≤ (orig.length : Int)) &&
    decide (slice orig c.orig_index.toNat c.del_lines.length = c.del_lines) &&
    chunksOK orig (c.orig_index.toNat + c.del_lines.length) rest

theorem applyChunks_eq_spec (orig : List Str) (path : Str) :
    ∀ (cs : List Chunk) (dest : List Str) (idx : Nat),
      chunksOK orig idx cs = true →
      applyChunks orig path cs dest idx = .ok (dest ++ updatedLinesSpec orig cs idx) := by
  intro cs
  induction cs with
  | nil => intro dest idx _; simp [applyChunks, updatedLinesSpec]
  | cons c rest ih =>
    intro dest idx h
    simp only [chunksOK, Bool.and_eq_true, decide_eq_true_eq] at h
    obtain ⟨⟨⟨h1, h2⟩, h3⟩, h4⟩ := h
    have hnn : 0 ≤ c.orig_index := le_trans (by omega) h1
    have htn : (c.orig_index.toNat : Int) = c.orig_index := Int.toNat_of_nonneg hnn
    have hle : c.orig_index ≤ (orig.length : Int) := by
      have : (0 : Int) ≤ c.del_lines.length := by positivity
      omega
    simp only [applyChunks]
    rw [if_neg (by push_neg; intro h'; omega)]
    rw [if_neg (by omega)]
    rw [if_neg (by omega)]
    rw [if_neg (by simp [h3])]
    rw [ih _ _ h4]
    simp [updatedLinesSpec, List.append_assoc]

/--
C1: for every Update action whose chunks (taken in `orig_index` order, as
sorted) are in-range, non-overlapping, and whose deleted lines match the
original file at the computed offsets, `_get_updated_file` succeeds and the
compiled new content equals the original lines with, per chunk in order, the
deleted lines removed at `orig_index` and the inserted lines put in their
place (every other line unchanged,`finalize` adding the trailing newline
rule).
-/
theorem claim_C1_update_compilation (text : Str) (action : PatchAction) (path : Str)
    (ht : action.type = ActionType.update)
    (hok : chunksOK (splitNl text) 0 (sortChunks action.chunks) = true) :
    get_updated_file text action path =
      .ok (finalize text (updatedLinesSpec (splitNl text) (sortChunks action.chunks) 0)) := by
  unfold get_updated_file
  rw [if_neg (by simp [ht])]
  rw [applyChunks_eq_spec _ _ _ [] 0 hok]
  rfl

/-- Equality of `Except` results is decidable; used to evaluate the engine
on concrete inputs inside proofs. -/
instance {ε α : Type _} [DecidableEq ε] [DecidableEq α] : DecidableEq (Except ε α) :=
  fun a b =>
    match a, b with
    | .error e, .error f =>
      if h : e = f then isTrue (by rw [h])
      else isFalse (by intro hh; injection hh; exact h ‹_›)
    | .error _, .ok _ => isFalse (by intro h; cases h)
    | .ok _, .error _ => isFalse (by intro h; cases h)
    | .ok x, .ok y =>
      if h : x = y then isTrue (by rw [h])
      else isFalse (by intro hh; injection hh; exact h ‹_›)

/-- Witness for C1: Scenario A — original `"a\nb\nc\n"`, one chunk inserting
`"x"` at original index 2 (between `b` and `c`) yields `"a\nb\nx\nc\n"`. -/
theorem claim_C1_update_compilation_witness :
    chunksOK (splitNl (chars "a\nb\nc\n")) 0
        (sortChunks [{ orig_index := 2, ins_lines := [chars "x"] }]) = true ∧
    get_updated_file (chars "a\nb\nc\n")
        { type := ActionType.update, chunks := [{ orig_index := 2, ins_lines := [chars "x"] }] }
        (chars "f") = .ok (chars "a\nb\nx\nc\n") := by
  refine ⟨by decide, ?_⟩
  rw [claim_C1_update_compilation _ _ _ rfl (by decide)]
  decide

/--
C2 (counterexample): a chunk whose `-` line `"a "` differs from the original
line `"a"` by one (whitespace) character does *not* raise a DiffError —
`_get_updated_file` falls back to a per-line `strip()` comparison and
compiles the patch successfully.
-/
theorem claim_C2_counterexample :
    slice (splitNl (chars "a\nb\n")) 0 1 ≠ [chars "a "] ∧
    get_updated_file (chars "a\nb\n")
        { type := ActionType.update, chunks := [{ orig_index := 0, del_lines := [chars "a "] }] }
        (chars "f") = .ok (chars "b\n") := by decide

theorem applyChunks_err (orig : List Str) (path : Str) :
    ∀ (cs : List Chunk) (dest : List Str) (idx : Nat),
      (∃ c ∈ cs,
        (slice orig c.orig_index.toNat c.del_lines.length).map strip ≠
          c.del_lines.map strip) →
      isErr (applyChunks orig path cs dest idx) = true := by
  intro cs
  induction cs with
  | nil => rintro dest idx ⟨c, hc, _⟩; exact absurd hc (by simp)
  | cons d rest ih =>
    rintro dest idx ⟨c, hc, hmis⟩
    simp only [applyChunks]
    split
    · rfl
    · split
      · rfl
      · split
        · rfl
        · split
          · rfl
          · next hcontent =>
            push_neg at hcontent
            rcases List.mem_cons.mp hc with rfl | hrest
            · by_cases hex : slice orig c.orig_index.toNat c.del_lines.length = c.del_lines
              · exact absurd (by rw [hex]) hmis
              · exact absurd (hcontent hex) hmis
            · exact ih _ _ ⟨c, hrest, hmis⟩

/--
C2 (amended): compiling an Update raises a DiffError when some chunk's `-`
lines differ from the original file at the computed offset by more than
per-line leading/trailing whitespace (after per-line `strip()`); a
difference in whitespace only is tolerated.
-/
theorem claim_C2_mismatched_deletion (text : Str) (action : PatchAction) (path : Str)
    (ht : action.type = ActionType.update)
    (hmis : ∃ c ∈ sortChunks action.chunks,
      (slice (splitNl text) c.orig_index.toNat c.del_lines.length).map strip ≠
        c.del_lines.map strip) :
    isErr (get_updated_file text action path) = true := by
  unfold get_updated_file
  rw [if_neg (by simp [ht])]
  have herr := applyChunks_err (splitNl text) path (sortChunks action.chunks) [] 0 hmis
  cases happly : applyChunks (splitNl text) path (sortChunks action.chunks) [] 0 with
  | error e => rfl
  | ok dest => rw [happly] at herr; exact absurd herr (by simp [isErr])

/-- Witness for C2 (amended): deleting `"b"` where the original has `"a"`
fails even after stripping. -/
theorem claim_C2_mismatched_deletion_witness :
    isErr (get_updated_file (chars "a\n")
      { type := ActionType.update, chunks := [{ orig_index := 0, del_lines := [chars "b"] }] }
      (chars "f")) = true :=
  claim_C2_mismatched_deletion _ _ _ rfl
    ⟨{ orig_index := 0, del_lines := [chars "b"] }, by decide, by decide⟩

/--
C9 (counterexample): an Update deleting every line of the original `"\n"`
compiles to the empty string, which does not end with a newline although the
original content did — the `final_content != ""` guard blocks the trailing
newline reproduction.
-/
theorem claim_C9_counterexample :
    get_updated_file (chars "\n")
        { type := ActionType.update, chunks := [{ orig_index := 0, del_lines := [[], []] }] }
        (chars "f") = .ok [] ∧
    endsNl (chars "\n") = true ∧ endsNl [] = false := by decide

theorem endsNl_concat (l : Str) : endsNl (l ++ ['\n']) = true := by
  simp [endsNl]

/--
C9 (amended): the compiled content ends with a trailing newline exactly when
the joined assembled lines already end with one, or the original content
ended with a newline and the joined result is non-empty, or the original was
empty and the joined result is non-empty.  (`finalize` is the last step of
`_get_updated_file`.)
-/
theorem claim_C9_trailing_newline (text : Str) (dest_lines : List Str) :
    endsNl (finalize text dest_lines) = true ↔
      (endsNl (joinNl dest_lines) = true ∨
       (endsNl text = true ∧ joinNl dest_lines ≠ []) ∨
       (text = [] ∧ joinNl dest_lines ≠ [])) := by
  unfold finalize
  dsimp only
  split_ifs with h1 h2
  · exact iff_of_true (endsNl_concat _) (Or.inr (Or.inl ⟨h1.1, h1.2.2⟩))
  · exact iff_of_true (endsNl_concat _) (Or.inr (Or.inr ⟨h2.1, h2.2.1⟩))
  · by_cases he : endsNl (joinNl dest_lines) = true
    · exact iff_of_true he (Or.inl he)
    · refine iff_of_false he ?_
      rintro (h | ⟨ha, hb⟩ | ⟨ha, hb⟩)
      · exact he h
      · exact h1 ⟨ha, he, hb⟩
      · exact h2 ⟨ha, hb, he⟩

/-- `finalize` leaves the unmodified line decomposition of a text unchanged. -/
theorem finalize_splitNl (text : Str) : finalize text (splitNl text) = text := by
  unfold finalize
  dsimp only
  rw [joinNl_splitNl]
  split_ifs with h1 h2
  · exact absurd h1.1 h1.2.1
  · exact absurd (h2.1 ▸ h2.2.1) (by simp)
  · rfl

/-- Parsing mode of the hunk extractor (`"keep"`, `"add"`, `"delete"`). -/
inductive Mode
  | keep
  | add
  | del
deriving DecidableEq

/-- Mutable state of the `peek_next_section` loop: accumulated context
lines, pending `-`/`+` runs, emitted chunks, the current mode, and Python's
`start_index_of_chunk_context` (with its `-1` sentinel). -/
structure PeekState where
  context_lines : List Str := []
  del_lines : List Str := []
  ins_lines : List Str := []
  chunks : List Chunk := []
  mode : Mode := .keep
  start_ctx : Int := -1
deriving DecidableEq

/-- The six prefixes that terminate a hunk section. -/
def isSectionBreak (s : Str) : Bool :=
  (chars "@@").isPrefixOf s || (chars "*** End Patch").isPrefixOf s ||
  (chars "*** Update File:").isPrefixOf s || (chars "*** Delete File:").isPrefixOf s ||
  (chars "*** Add File:").isPrefixOf s || (chars "*** End of File").isPrefixOf s

/-- True when the `peek_next_section` loop consumes this line rather than
breaking or failing on it. -/
def consumableLine (s : Str) : Bool :=
  !(isSectionBreak s || decide (s = chars "***") || (chars "***").isPrefixOf s)

/-- The `while` loop of `peek_next_section` (lines 325-395 of
`patch_tool.py`), with a fuel argument for structural recursion; callers
pass fuel at least `lines.length - index + 1`, which the single-step index
advance makes sufficient. -/
def peekLoop (lines : List Str) : Nat → Nat → PeekState → Except DiffError (PeekState × Nat)
  | 0, index, st => .ok (st, index)
  | fuel + 1, index, st =>
    match lines[index]? with
    | none => .ok (st, index)
    | some s =>
      if isSectionBreak s then .ok (st, index)
      else if s = chars "***" then .ok (st, index)
      else if (chars "***").isPrefixOf s then .error (chars "Invalid Line within chunk")
      else
        let pre0 : Char := s.headD ' '
        let liner : Str := if pre0 = '+' ∨ pre0 = '-' ∨ pre0 = ' ' then s.drop 1 else s
        let new_mode : Mode := if pre0 = '+' then .add else if pre0 = '-' then .del else .keep
        if new_mode = Mode.keep ∧ st.mode ≠ Mode.keep ∧
            (st.ins_lines ≠ [] ∨ st.del_lines ≠ []) ∧ st.start_ctx = -1 then
          .error (chars "chunk has no context start index")
        else
          let closed : Chunk :=
            { orig_index := st.start_ctx, del_lines := st.del_lines, ins_lines := st.ins_lines }
          let st1 :=
            if new_mode = Mode.keep ∧ st.mode ≠ Mode.keep then
              if st.ins_lines ≠ [] ∨ st.del_lines ≠ [] then
                { st with chunks := st.chunks ++ [closed], del_lines := [], ins_lines := [], start_ctx := -1 }
              else { st with del_lines := [], ins_lines := [], start_ctx := -1 }
            else st
          let newStart : Int :=
            if st1.start_ctx = -1 then (st1.context_lines.length : Int) else st1.start_ctx
          let st2 :=
            match new_mode with
            | .del =>
              { st1 with mode := .del, start_ctx := newStart, del_lines := st1.del_lines ++ [liner], context_lines := st1.context_lines ++ [liner] }
            | .add =>
              { st1 with mode := .add, start_ctx := newStart, ins_lines := st1.ins_lines ++ [liner] }
            | .keep =>
              { st1 with mode := .keep, context_lines := st1.context_lines ++ [liner] }
          peekLoop lines fuel (index + 1) st2

/-- The `*** End of File` consumption step after the `peek_next_section`
loop: the updated cursor and the EOF flag. -/
def eofStep (lines : List Str) (idx : Nat) : Nat × Bool :=
  match lines[idx]? with
  | some s => if s = chars "*** End of File" then (idx + 1, true) else (idx, false)
  | none => (idx, false)

/-- Whether the line at position `i` starts with `@@` or `***` (the guard of
the empty-section check). -/
def nextSectionOk (lines : List Str) (i : Nat) : Bool :=
  match lines[i]? with
  | some s => (chars "@@").isPrefixOf s || (chars "***").isPrefixOf s
  | none => false

/-- `peek_next_section` from `patch_tool.py`: returns the context block, the
chunk list (indices relative to the context block), the new cursor position,
and the EOF-anchor flag. -/
def peek_next_section (lines : List Str) (index : Nat) :
    Except DiffError (List Str × List Chunk × Nat × Bool) :=
  match peekLoop lines (lines.length - index + 1) index {} with
  | .error e => .error e
  | .ok (st, idx) =>
    let pending : Chunk :=
      { orig_index := if st.start_ctx = -1 then 0 else st.start_ctx,
        del_lines := st.del_lines, ins_lines := st.ins_lines }
    let st2 :=
      if st.ins_lines ≠ [] ∨ st.del_lines ≠ [] then
        { st with chunks := st.chunks ++ [pending] }
      else st
    if (eofStep lines idx).1 = index ∧ (eofStep lines idx).2 = false ∧
        nextSectionOk lines (eofStep lines idx).1 = false then
      .error (chars "empty or invalid chunk section")
    else
      .ok (st2.context_lines, st2.chunks, (eofStep lines idx).1, (eofStep lines idx).2)

theorem peekLoop_context_only (lines : List Str) :
    ∀ (fuel index : Nat) (st st' : PeekState) (idx' : Nat),
      st.mode = Mode.keep →
      (∀ s ∈ (lines.drop index).takeWhile consumableLine,
        ¬(s.headD ' ' = '+' ∨ s.headD ' ' = '-')) →
      peekLoop lines fuel index st = .ok (st', idx') →
      st'.chunks = st.chunks ∧ st'.del_lines = st.del_lines ∧
        st'.ins_lines = st.ins_lines ∧ st'.mode = Mode.keep := by
  intro fuel
  induction fuel with
  | zero =>
    intro index st st' idx' hm _ h
    injection h with h'
    injection h' with h1 h2
    subst h1
    exact ⟨rfl, rfl, rfl, hm⟩
  | succ n ih =>
    intro index st st' idx' hm hkeep h
    simp only [peekLoop] at h
    cases hg : lines[index]? with
    | none =>
      simp only [hg] at h
      injection h with h'
      injection h' with h1 h2
      subst h1
      exact ⟨rfl, rfl, rfl, hm⟩
    | some s =>
      simp only [hg] at h
      have hdrop : lines.drop index = s :: lines.drop (index + 1) := by
        obtain ⟨hlt, hv⟩ := List.getElem?_eq_some.mp hg
        rw [← hv]
        exact (List.getElem_cons_drop lines index hlt).symm
      by_cases hb : isSectionBreak s = true
      · rw [if_pos hb] at h
        injection h with h'
        injection h' with h1 h2
        subst h1
        exact ⟨rfl, rfl, rfl, hm⟩
      · rw [if_neg hb] at h
        by_cases hstar : s = chars "***"
        · rw [if_pos hstar] at h
          injection h with h'
          injection h' with h1 h2
          subst h1
          exact ⟨rfl, rfl, rfl, hm⟩
        · rw [if_neg hstar] at h
          by_cases hpre : (chars "***").isPrefixOf s = true
          · rw [if_pos hpre] at h
            exact absurd h (by simp)
          · rw [if_neg hpre] at h
            have hcons : consumableLine s = true := by
              simp [consumableLine, hb, hstar, hpre]
            have hsmem : s ∈ (lines.drop index).takeWhile consumableLine := by
              rw [hdrop, List.takeWhile_cons_of_pos hcons]
              exact List.mem_cons_self _ _
            have hnotpm := hkeep s hsmem
            have hmode : (if s.headD ' ' = '+' then Mode.add
                else if s.headD ' ' = '-' then Mode.del else Mode.keep) = Mode.keep := by
              rw [if_neg (fun hc => hnotpm (Or.inl hc)), if_neg (fun hc => hnotpm (Or.inr hc))]
            rw [hmode] at h
            rw [if_neg (by rw [hm]; simp)] at h
            rw [if_neg (by rw [hm]; simp)] at h
            have hrest : ∀ s' ∈ (lines.drop (index + 1)).takeWhile consumableLine,
                ¬(s'.headD ' ' = '+' ∨ s'.headD ' ' = '-') := by
              intro s' hs'
              apply hkeep s'
              rw [hdrop, List.takeWhile_cons_of_pos hcons]
              exact List.mem_cons_of_mem _ hs'
            obtain ⟨h1, h2, h3, h4⟩ := ih (index + 1) _ st' idx' rfl hrest h
            exact ⟨h1, h2, h3, h4⟩

/--
C7: (i) a hunk section consisting only of context lines (no line of the
consumed run starts with `+` or `-`) extracts an empty chunk list; (ii) an
Update action with no chunks compiles to content byte-identical to the
original text.  Together: a context-only Update patch leaves content
unchanged.
-/
theorem claim_C7_context_only_roundtrip :
    (∀ (lines : List Str) (index : Nat) (ctx : List Str) (chunks : List Chunk)
        (idx' : Nat) (eof : Bool),
      (∀ s ∈ (lines.drop index).takeWhile consumableLine,
        ¬(s.headD ' ' = '+' ∨ s.headD ' ' = '-')) →
      peek_next_section lines index = .ok (ctx, chunks, idx', eof) →
      chunks = []) ∧
    (∀ (text : Str) (action : PatchAction) (path : Str),
      action.type = ActionType.update → action.chunks = [] →
      get_updated_file text action path = .ok text) := by
  constructor
  · intro lines index ctx chunks idx' eof hkeep h
    unfold peek_next_section at h
    cases hp : peekLoop lines (lines.length - index + 1) index ({} : PeekState) with
    | error e => rw [hp] at h; exact absurd h (by simp)
    | ok r =>
      obtain ⟨st, idx⟩ := r
      obtain ⟨h1, h2, h3, _⟩ := peekLoop_context_only lines _ index {} st idx rfl hkeep hp
      have hchunks : st.chunks = [] := h1
      have hdel : st.del_lines = [] := h2
      have hins : st.ins_lines = [] := h3
      simp only [hp, hdel, hins, ne_eq, not_true_eq_false, or_self, if_false] at h
      split at h
      · exact absurd h (by simp)
      · injection h with h'
        injection h' with ha hb
        injection hb with hb1 hb2
        exact hb1.symm.trans hchunks
  · intro text action path ht hc
    unfold get_updated_file
    rw [if_neg (by simp [ht]), hc]
    have happ : applyChunks (splitNl text) path (sortChunks []) [] 0 = .ok (splitNl text) := by
      simp [sortChunks, applyChunks]
    simp only [happ]
    rw [finalize_splitNl]

/-- Witness for C7 at concrete inputs: a one-line context-only hunk yields no
chunks, and a chunk-free update of `"q\n"` returns `"q\n"` itself. -/
theorem claim_C7_context_only_roundtrip_witness :
    ([] : List Chunk) = [] ∧
    get_updated_file (chars "q\n") { type := ActionType.update } (chars "f") =
      .ok (chars "q\n") :=
  ⟨claim_C7_context_only_roundtrip.1 [chars " a"] 0 [chars "a"] [] 1 false (by decide)
      (by decide),
    claim_C7_context_only_roundtrip.2 (chars "q\n") { type := ActionType.update } (chars "f")
      rfl rfl⟩

/-- `Parser._norm`: strip trailing CR so comparisons work for LF and CRLF. -/
def norm (s : Str) : Str := (s.reverse.dropWhile (fun c => c = '\r')).reverse

/-- Python `str.splitlines()` for `\n`, `\r\n` and `\r` terminators (no
trailing empty piece). -/
def splitlines : Str → List Str :=
  go []
where
  go (acc : Str) : Str → List Str
    | [] => if acc = [] then [] else [acc.reverse]
    | '\r' :: '\n' :: rest => acc.reverse :: go [] rest
    | '\n' :: rest => acc.reverse :: go [] rest
    | '\r' :: rest => acc.reverse :: go [] rest
    | c :: rest => go (c :: acc) rest

/-- `Parser.is_done`: past the end, or the CR-trimmed current line starts
with one of the stop prefixes. -/
def is_done (plines : List Str) (index : Nat) (stops : List Str) : Bool :=
  match plines[index]? with
  | none => true
  | some cur => stops.any (fun p => p.isPrefixOf (norm cur))

/-- `Parser.read_str`: if the CR-trimmed current line starts with the
prefix, consume it and return the raw text after the prefix, else return
empty without consuming; error past the end (Python's `_cur_line` raise). -/
def read_str (plines : List Str) (index : Nat) (pre : Str) : Except DiffError (Str × Nat) :=
  match plines[index]? with
  | none => .error (chars "Unexpected end of input while parsing patch")
  | some cur =>
    if pre.isPrefixOf (norm cur) then .ok (cur.drop pre.length, index + 1)
    else .ok ([], index)

/-- The four stop prefixes of the per-file section parsers. -/
def stops4 : List Str :=
  [chars "*** End Patch", chars "*** Update File:", chars "*** Delete File:",
    chars "*** Add File:"]

/--
`Parser._parse_update_file` body loop: per iteration an optional `@@ <label>`
marker (with the `@@`-bare special case), the hunk extractor, and the context
matcher; accumulates the chunks (offset by the match index) and fuzz.
Fuel replaces the `while`; callers pass `plines.length + 1`, enough because
a terminating Python run consumes at least one patch line per iteration (a
zero-progress iteration would loop forever in the Python source).
-/
def parseUpdateLoop (plines flines : List Str) :
    Nat → Nat → Nat → List Chunk → Int → Except DiffError (List Chunk × Nat × Int)
  | 0, _, _, _, _ => .error (chars "parser made no progress")
  | fuel + 1, pindex, findex, chunks, fuzz =>
    if is_done plines pindex stops4 then .ok (chunks, pindex, fuzz)
    else
      match read_str plines pindex (chars "@@ ") with
      | .error e => .error e
      | .ok (def_str, p1) =>
        let step2 : Except DiffError Nat :=
          if def_str = [] then
            match plines[p1]? with
            | none => .error (chars "Unexpected end of input while parsing patch")
            | some cur => if norm cur = chars "@@" then .ok (p1 + 1) else .ok p1
          else .ok p1
        match step2 with
        | .error e => .error e
        | .ok p2 =>
          match (if strip def_str ≠ [] then locate_marker flines def_str findex
            else .ok (findex, 0)) with
          | .error e => .error e
          | .ok (findex1, fz1) =>
            match peek_next_section plines p2 with
            | .error e => .error e
            | .ok (next_ctx, pchunks, end_idx, eof) =>
              match find_context flines next_ctx findex1 eof with
              | none => .error (chars "Invalid context: context not found")
              | some (new_index, f) =>
                parseUpdateLoop plines flines fuel end_idx (new_index + next_ctx.length)
                  (chunks ++ pchunks.map
                    (fun ch => { ch with orig_index := ch.orig_index + (new_index : Int) }))
                  (fuzz + (fz1 : Int) + f)

/-- `Parser._parse_add_file` body loop: every line must start with `+`; the
remainders are collected. -/
def parseAddLoop (plines : List Str) :
    Nat → Nat → List Str → Except DiffError (List Str × Nat)
  | 0, _, _ => .error (chars "parser made no progress")
  | fuel + 1, pindex, acc =>
    if is_done plines pindex stops4 then .ok (acc, pindex)
    else
      match plines[pindex]? with
      | none => .ok (acc, pindex)
      | some s =>
        if (chars "+").isPrefixOf s then parseAddLoop plines fuel (pindex + 1) (acc ++ [s.drop 1])
        else .error (chars "Invalid Add File line (missing +)")

/-- Python dict lookup in `current_files` (first match of the association
list). -/
def lookupFile (files : List (Str × Str)) (path : Str) : Option Str :=
  match files with
  | [] => none
  | (p, c) :: rest => if p = path then some c else lookupFile rest path

/-- `path in self.patch.actions`. -/
def hasAction (actions : List (Str × PatchAction)) (path : Str) : Bool :=
  actions.any (fun a => decide (a.1 = path))

/--
`Parser.parse`: repeatedly dispatch Update / Delete / Add directives until
`*** End Patch`, accumulating actions (in insertion order) and fuzz.
-/
def parseLoop (files : List (Str × Str)) (plines : List Str) :
    Nat → Nat → List (Str × PatchAction) → Int →
      Except DiffError (List (Str × PatchAction) × Int)
  | 0, _, _, _ => .error (chars "parser made no progress")
  | fuel + 1, pindex, actions, fuzz =>
    if is_done plines pindex [chars "*** End Patch"] then .ok (actions, fuzz)
    else
      match read_str plines pindex (chars "*** Update File: ") with
      | .error e => .error e
      | .ok (upath, p1) =>
        if upath ≠ [] then
          if hasAction actions upath then .error (chars "Duplicate update for file")
          else
            match read_str plines p1 (chars "*** Move to: ") with
            | .error e => .error e
            | .ok (move_to, p2) =>
              match lookupFile files upath with
              | none => .error (chars "Update File Error - missing file")
              | some text =>
                match parseUpdateLoop plines (splitNl text) (plines.length + 1) p2 0 [] 0 with
                | .error e => .error e
                | .ok (chunks, p3, fz) =>
                  let action : PatchAction :=
                    { type := ActionType.update, chunks := chunks,
                      move_path := if move_to = [] then none else some move_to }
                  parseLoop files plines fuel p3 (actions ++ [(upath, action)]) (fuzz + fz)
        else
          match read_str plines p1 (chars "*** Delete File: ") with
          | .error e => .error e
          | .ok (dpath, p2) =>
            if dpath ≠ [] then
              if hasAction actions dpath then .error (chars "Duplicate delete for file")
              else if lookupFile files dpath = none then
                .error (chars "Delete File Error - missing file")
              else
                parseLoop files plines fuel p2
                  (actions ++ [(dpath, { type := ActionType.delete })]) fuzz
            else
              match read_str plines p2 (chars "*** Add File: ") with
              | .error e => .error e
              | .ok (apath, p3) =>
                if apath ≠ [] then
                  if hasAction actions apath then .error (chars "Duplicate add for file")
                  else if (lookupFile files apath).isSome then
                    .error (chars "Add File Error - file already exists")
                  else
                    match parseAddLoop plines (plines.length + 1) p3 [] with
                    | .error e => .error e
                    | .ok (body, p4) =>
                      parseLoop files plines fuel p4
                        (actions ++
                          [(apath, { type := ActionType.add, new_file := some (joinNl body) })])
                        fuzz
                else .error (chars "Unknown line while parsing")

/-- Downward scan of Python `range(hi, lo-1, -1)` (`count` candidates from
`i` downwards). -/
def findDown (p : Nat → Bool) : Nat → Nat → Option Nat
  | _, 0 => none
  | i, count + 1 => if p i then some i else findDown p (i - 1) count

/-- `text_to_patch`: trim to between the sentinels (the last `*** End Patch`
searched backwards) and run the parser. -/
def text_to_patch (text : Str) (orig : List (Str × Str)) :
    Except DiffError (List (Str × PatchAction) × Int) :=
  let lines := splitlines text
  if lines = [] then .error (chars "Empty patch text provided")
  else
    match findFirst
        (fun i => (chars "*** Begin Patch").isPrefixOf (norm (lines.getD i [])))
        0 lines.length with
    | none => .error (chars "Invalid patch text - missing Begin Patch sentinel")
    | some b =>
      let start_index := b + 1
      match findDown (fun i => decide (norm (lines.getD i []) = chars "*** End Patch"))
          (lines.length - 1) (lines.length + 1 - start_index) with
      | none => .error (chars "Invalid patch text - missing End Patch sentinel")
      | some end_index =>
        if end_index < start_index then
          .error (chars "Begin Patch found after End Patch")
        else
          parseLoop orig (slice lines start_index (end_index - start_index))
            ((slice lines start_index (end_index - start_index)).length + 1) 0 [] 0

/-- `FileChange` from `patch_tool.py`. -/
structure FileChange where
  type : ActionType
  old_content : Option Str := none
  new_content : Option Str := none
  move_path : Option Str := none
deriving DecidableEq

/-- `patch_to_commit`: resolve every action to a concrete `FileChange`,
computing updated file contents via `_get_updated_file`. -/
def patch_to_commit (actions : List (Str × PatchAction)) (orig : List (Str × Str)) :
    Except DiffError (List (Str × FileChange)) :=
  match actions with
  | [] => .ok []
  | (path, action) :: rest =>
    match action.type with
    | ActionType.delete =>
      match patch_to_commit rest orig with
      | .error e => .error e
      | .ok cs =>
        .ok ((path, { type := ActionType.delete, old_content := lookupFile orig path }) :: cs)
    | ActionType.add =>
      match action.new_file with
      | none => .error (chars "ADD action has no content")
      | some nf =>
        match patch_to_commit rest orig with
        | .error e => .error e
        | .ok cs => .ok ((path, { type := ActionType.add, new_content := some nf }) :: cs)
    | ActionType.update =>
      match lookupFile orig path with
      | none => .error (chars "Cannot UPDATE non-existent file")
      | some t =>
        match get_updated_file t action path with
        | .error e => .error e
        | .ok nc =>
          match patch_to_commit rest orig with
          | .error e => .error e
          | .ok cs =>
            let fc : FileChange :=
              { type := ActionType.update, old_content := some t, new_content := some nc,
                move_path := action.move_path }
            .ok ((path, fc) :: cs)

/-- The compile pipeline: patch text to a resolved commit plus fuzz. -/
def process_patch (text : Str) (orig : List (Str × Str)) :
    Except DiffError (List (Str × FileChange) × Int) :=
  match text_to_patch text orig with
  | .error e => .error e
  | .ok (actions, fuzz) =>
    match patch_to_commit actions orig with
    | .error e => .error e
    | .ok commit => .ok (commit, fuzz)

/-- An insertion patch whose hunk has no context lines at all. -/
def insPatchNoCtx : Str := chars "*** Begin Patch\n*** Update File: f\n+x\n*** End Patch"

/-- Scenario A's insertion patch: context `a`,`b`, insert `x`, context `c`. -/
def insPatchFlanked : Str :=
  chars "*** Begin Patch\n*** Update File: f\n a\n b\n+x\n c\n*** End Patch"

/--
C8 (counterexample): an insertion patch with a context-free hunk applies
successfully to `"a\n"` producing `"x\na\n"`, and re-applying the very same
patch text to that output again succeeds — producing `"x\nx\na\n"`, silently
duplicating the inserted line instead of failing with a DiffError.
-/
theorem claim_C8_counterexample :
    process_patch insPatchNoCtx [(chars "f", chars "a\n")] =
      .ok ([(chars "f",
        { type := ActionType.update, old_content := some (chars "a\n"),
          new_content := some (chars "x\na\n") })], 0) ∧
    process_patch insPatchNoCtx [(chars "f", chars "x\na\n")] =
      .ok ([(chars "f",
        { type := ActionType.update, old_content := some (chars "x\na\n"),
          new_content := some (chars "x\nx\na\n") })], 0) :=
  ⟨rfl, rfl⟩

/--
C8 (amended): re-applying an insertion patch to its own output is not
guaranteed to fail — a hunk whose insertion is not followed by context
re-applies and duplicates (see the counterexample) — but when the inserted
lines are flanked by context, as in Scenario A, the first application
succeeds and re-application to the output fails with an unmatched-context
DiffError.
-/
theorem claim_C8_reapply_insertion :
    process_patch insPatchFlanked [(chars "f", chars "a\nb\nc\n")] =
      .ok ([(chars "f",
        { type := ActionType.update, old_content := some (chars "a\nb\nc\n"),
          new_content := some (chars "a\nb\nx\nc\n") })], 0) ∧
    isErr (process_patch insPatchFlanked [(chars "f", chars "a\nb\nx\nc\n")]) = true :=
  ⟨rfl, rfl⟩

/-- `Commit` from `patch_tool.py`: path-indexed changes in insertion order. -/
structure Commit where
  changes : List (Str × FileChange) := []
deriving DecidableEq

/-- Result of one injected callback call: a returned boolean, or a raised
exception (caught by `apply_commit`'s per-file `except` blocks). -/
inductive CallResult
  | ok : Bool → CallResult
  | exn : Str → CallResult
deriving DecidableEq

/-- One observable side effect of `apply_commit`: an invocation of the
injected `write_fn` or `remove_fn`. -/
inductive Event
  | write : Str → Str → Event
  | remove : Str → Event
deriving DecidableEq

/-- The applier's state: the `results` dict, the `target_paths_written` and
`moved_sources` sets, the (mutated) `commit.changes` dict, and the trace of
callback invocations in order. -/
structure AState where
  results : List (Str × Str) := []
  written : List Str := []
  moved : List Str := []
  changes : List (Str × FileChange) := []
  trace : List Event := []
deriving DecidableEq

/-- Python dict assignment `m[k] = v`: update in place, else append. -/
def dset (m : List (Str × Str)) (k v : Str) : List (Str × Str) :=
  if m.any (fun p => decide (p.1 = k)) then
    m.map (fun p => if p.1 = k then (k, v) else p)
  else m ++ [(k, v)]

/-- Python dict lookup `m[k]` (first match). -/
def dlookup (m : List (Str × Str)) (k : Str) : Option Str :=
  match m with
  | [] => none
  | (a, b) :: rest => if a = k then some b else dlookup rest k

/-- Python `del m[k]` on the changes dict. -/
def eraseKey (m : List (Str × FileChange)) (k : Str) : List (Str × FileChange) :=
  m.filter (fun p => decide (p.1 ≠ k))

/-- Python truthiness of an optional string (`None` and `""` are falsy). -/
def truthyOpt : Option Str → Bool
  | none => false
  | some s => decide (s ≠ [])

/-- The delete-pass loop body of `apply_commit` (lines 649-664). -/
def deleteStep (rfn : Str → CallResult) (st : AState) (pc : Str × FileChange) : AState :=
  if pc.2.type = ActionType.delete then
    let st1 := { st with trace := st.trace ++ [Event.remove pc.1] }
    let st2 :=
      match rfn pc.1 with
      | .ok true =>
        { st1 with results := dset st1.results pc.1 (chars "Deleted"), moved := st1.moved ++ [pc.1] }
      | .ok false =>
        { st1 with results := dset st1.results pc.1 (chars "Deleted (or already missing)"), moved := st1.moved ++ [pc.1] }
      | .exn e =>
        { st1 with results := dset st1.results pc.1 (chars "Error: Unexpected exception during delete - " ++ e) }
    { st2 with changes := eraseKey st2.changes pc.1 }
  else st

/-- The update/move-pass loop body of `apply_commit` (lines 668-709).  The
early `continue` paths (no new content, target conflict, already-deleted
source) record an error and notably skip the `del commit.changes[path]`. -/
def updateStep (wfn : Str → Str → CallResult) (rfn : Str → CallResult)
    (st : AState) (pc : Str × FileChange) : AState :=
  let path := pc.1
  let change := pc.2
  if change.type = ActionType.update then
    match change.new_content with
    | none => { st with results := dset st.results path (chars "Error: UPDATE change has no new content") }
    | some content =>
      let target :=
        match change.move_path with
        | some m => if m ≠ [] then m else path
        | none => path
      if target ≠ path ∧ target ∈ st.written then
        { st with results := dset st.results path (chars "Error: Cannot move/update to target, it was modified in the same patch") }
      else if path ∈ st.moved then
        { st with results := dset st.results path (chars "Error: Cannot update path, it was deleted in the same patch") }
      else
        let st1 := { st with trace := st.trace ++ [Event.write target content] }
        let st2 :=
          match wfn target content with
          | .ok true =>
            let stw := { st1 with written := st1.written ++ [target] }
            if truthyOpt change.move_path then
              if path ∉ stw.moved then
                let str' := { stw with trace := stw.trace ++ [Event.remove path] }
                match rfn path with
                | .ok true =>
                  { str' with results := dset str'.results path (chars "Moved to " ++ target), moved := str'.moved ++ [path] }
                | .ok false =>
                  { str' with results := dset str'.results path (chars "Error: Updated at target, but failed to remove original " ++ path) }
                | .exn e =>
                  { str' with results := dset str'.results path (chars "Error: Unexpected exception during update/move - " ++ e) }
              else
                { stw with results := dset stw.results path (chars "Moved to " ++ target ++ chars " (original already handled)") }
            else { stw with results := dset stw.results path (chars "Updated") }
          | .ok false =>
            { st1 with results := dset st1.results path (chars "Error: Failed to write update to " ++ target) }
          | .exn e =>
            { st1 with results := dset st1.results path (chars "Error: Unexpected exception during update/move - " ++ e) }
        { st2 with changes := eraseKey st2.changes path }
  else st

/-- The add-pass loop body of `apply_commit` (lines 713-743), including the
`Unhandled change type` fallback for non-Add leftovers. -/
def addStep (wfn : Str → Str → CallResult) (st : AState) (pc : Str × FileChange) : AState :=
  let path := pc.1
  let change := pc.2
  if change.type = ActionType.add then
    match change.new_content with
    | none => { st with results := dset st.results path (chars "Error: ADD change has no content") }
    | some content =>
      if path ∈ st.written then
        { st with results := dset st.results path (chars "Error: Cannot add path, it was already written to in the same patch") }
      else if path ∈ st.moved then
        { st with results := dset st.results path (chars "Error: Cannot add path, it was deleted or moved from in the same patch") }
      else
        let st1 := { st with trace := st.trace ++ [Event.write path content] }
        match wfn path content with
        | .ok true =>
          { st1 with results := dset st1.results path (chars "Added"), written := st1.written ++ [path] }
        | .ok false =>
          { st1 with results := dset st1.results path (chars "Error: Failed to write new file") }
        | .exn e =>
          { st1 with results := dset st1.results path (chars "Error: Unexpected exception during add - " ++ e) }
  else { st with results := dset st.results path (chars "Error: Unhandled change type") }

/-- The delete pass: iterate a snapshot of the current changes dict. -/
def applyDeletes (rfn : Str → CallResult) (st : AState) : AState :=
  st.changes.foldl (deleteStep rfn) st

/-- The update/move pass: iterate a snapshot of the current changes dict. -/
def applyUpdates (wfn : Str → Str → CallResult) (rfn : Str → CallResult) (st : AState) :
    AState :=
  st.changes.foldl (updateStep wfn rfn) st

/-- The add pass: iterate the remaining changes dict. -/
def applyAdds (wfn : Str → Str → CallResult) (st : AState) : AState :=
  st.changes.foldl (addStep wfn) st

/-- `apply_commit` from `patch_tool.py`: the three fixed passes
(deletes, then updates/moves, then adds), each iterating over a snapshot of
the current `commit.changes`.  The returned state carries the results dict,
the mutated changes dict, and the callback trace. -/
def apply_commit (commit : Commit) (wfn : Str → Str → CallResult) (rfn : Str → CallResult) :
    AState :=
  applyAdds wfn (applyUpdates wfn rfn (applyDeletes rfn { changes := commit.changes }))

/-- A write/remove callback pair that always succeeds. -/
def wAlwaysOk : Str → Str → CallResult := fun _ _ => CallResult.ok true

/-- A remove callback that always succeeds. -/
def rAlwaysOk : Str → CallResult := fun _ => CallResult.ok true

theorem dlookup_dset (m : List (Str × Str)) (k v : Str) :
    dlookup (dset m k v) k = some v := by
  unfold dset
  split
  · next hany =>
    induction m with
    | nil => simp at hany
    | cons p rest ih =>
      simp only [List.map_cons]
      by_cases hp : p.1 = k
      · rw [if_pos hp]
        simp [dlookup]
      · rw [if_neg hp]
        simp only [dlookup]
        rw [if_neg hp]
        apply ih
        simpa [hp] using hany
  · induction m with
    | nil => simp [dlookup]
    | cons p rest ih =>
      next hany =>
      simp only [List.cons_append, dlookup]
      have hp : ¬ p.1 = k := by
        intro hc
        exact hany (by simp [List.any_cons, hc])
      rw [if_neg hp]
      exact ih (fun hc => hany (by simp [List.any_cons, hc]))

/-- C5 (counterexample): an Update that moves `a` to `a` itself (target not
distinct from the original path) still removes the original after the write:
the applier calls `write a` and then `remove a`, and reports `"Moved to a"`,
although the original path is not distinct from the target. -/
theorem claim_C5_counterexample :
    (apply_commit
        ⟨[(chars "a",
          { type := ActionType.update, new_content := some (chars "x"),
            move_path := some (chars "a") })]⟩ wAlwaysOk rAlwaysOk).trace =
      [Event.write (chars "a") (chars "x"), Event.remove (chars "a")] ∧
    dlookup (apply_commit
        ⟨[(chars "a",
          { type := ActionType.update, new_content := some (chars "x"),
            move_path := some (chars "a") })]⟩ wAlwaysOk rAlwaysOk).results (chars "a") =
      some (chars "Moved to a") := by decide

/-- A prefix of `l` is a prefix of `l ++ m`. -/
theorem isPrefixOf_append_of (p : Str) :
    ∀ (l : Str) (m : Str), p.isPrefixOf l = true → p.isPrefixOf (l ++ m) = true := by
  induction p with
  | nil => intro l m _; cases l <;> cases m <;> simp [List.isPrefixOf]
  | cons a as ih =>
    intro l m h
    cases l with
    | nil => simp [List.isPrefixOf] at h
    | cons b bs =>
      simp only [List.cons_append, List.isPrefixOf, Bool.and_eq_true] at h ⊢
      exact ⟨h.1, ih bs m h.2⟩

/--
C5 (amended): for an Update carrying a non-empty move target `m` (with no
target conflict), the applier writes the new content to `m` first; only when
that write succeeds does it call remove on the original path, and only if
the original was not already deleted/moved in this commit — the code does
not require the original to be distinct from the target.  A successful
write whose source removal fails yields an `"Error: …"` status; full
success yields `"Moved to <target>"`; a failed or raising write emits no
remove call and yields an `"Error: …"` status; a source already deleted in
this commit is rejected with an `"Error: …"` status before any write.
-/
theorem claim_C5_move_semantics (wfn : Str → Str → CallResult) (rfn : Str → CallResult)
    (st : AState) (path : Str) (change : FileChange) (content m : Str)
    (ht : change.type = ActionType.update)
    (hc : change.new_content = some content)
    (hm : change.move_path = some m) (hm0 : m ≠ [])
    (hconf : ¬(m ≠ path ∧ m ∈ st.written)) :
    (path ∉ st.moved →
      (wfn m content = .ok true →
        (updateStep wfn rfn st (path, change)).trace =
          st.trace ++ [Event.write m content, Event.remove path] ∧
        (rfn path = .ok true →
          dlookup (updateStep wfn rfn st (path, change)).results path =
            some (chars "Moved to " ++ m)) ∧
        (rfn path = .ok false →
          ∃ msg, dlookup (updateStep wfn rfn st (path, change)).results path = some msg ∧
            (chars "Error: ").isPrefixOf msg = true)) ∧
      (wfn m content ≠ .ok true →
        (updateStep wfn rfn st (path, change)).trace = st.trace ++ [Event.write m content] ∧
        ∃ msg, dlookup (updateStep wfn rfn st (path, change)).results path = some msg ∧
          (chars "Error: ").isPrefixOf msg = true)) ∧
    (path ∈ st.moved →
      (updateStep wfn rfn st (path, change)).trace = st.trace ∧
      ∃ msg, dlookup (updateStep wfn rfn st (path, change)).results path = some msg ∧
        (chars "Error: ").isPrefixOf msg = true) := by
  unfold updateStep
  dsimp only
  rw [if_pos ht, hc, hm]
  dsimp only
  rw [if_pos hm0, if_neg hconf]
  have htru : truthyOpt (some m) = true := by simp [truthyOpt, hm0]
  refine ⟨fun hmv => ?_, fun hmv => ?_⟩
  · rw [if_neg hmv]
    refine ⟨fun hw => ?_, fun hw => ?_⟩
    · rw [hw]
      dsimp only
      rw [if_pos htru, if_pos hmv]
      cases hr : rfn path with
      | ok b =>
        cases b
        · refine ⟨by simp, fun hcontra => by simp at hcontra, fun _ => ?_⟩
          exact ⟨_, dlookup_dset _ _ _,
            isPrefixOf_append_of (chars "Error: ")
              (chars "Error: Updated at target, but failed to remove original ") path
              (by decide)⟩
        · exact ⟨by simp, fun _ => dlookup_dset _ _ _, fun hcontra => by simp at hcontra⟩
      | exn e =>
        exact ⟨by simp, fun hcontra => by simp at hcontra, fun hcontra => by simp at hcontra⟩
    · cases hwv : wfn m content with
      | ok b =>
        cases b
        · refine ⟨by simp, ?_⟩
          exact ⟨_, dlookup_dset _ _ _,
            isPrefixOf_append_of (chars "Error: ")
              (chars "Error: Failed to write update to ") m (by decide)⟩
        · exact absurd hwv hw
      | exn e =>
        refine ⟨by simp, ?_⟩
        exact ⟨_, dlookup_dset _ _ _,
          isPrefixOf_append_of (chars "Error: ")
            (chars "Error: Unexpected exception during update/move - ") e (by decide)⟩
  · rw [if_pos hmv]
    exact ⟨rfl, _, dlookup_dset _ _ _, by decide⟩

/-- Witness for C5 (amended): moving `a` to `b` with always-succeeding
callbacks writes `b` then removes `a` and reports `"Moved to b"`. -/
theorem claim_C5_move_semantics_witness :
    (updateStep wAlwaysOk rAlwaysOk {}
      (chars "a",
        { type := ActionType.update, new_content := some (chars "x"),
          move_path := some (chars "b") })).trace =
      [Event.write (chars "b") (chars "x"), Event.remove (chars "a")] ∧
    dlookup (updateStep wAlwaysOk rAlwaysOk {}
      (chars "a",
        { type := ActionType.update, new_content := some (chars "x"),
          move_path := some (chars "b") })).results (chars "a") =
      some (chars "Moved to b") := by
  have h := (claim_C5_move_semantics wAlwaysOk rAlwaysOk {} (chars "a")
    { type := ActionType.update, new_content := some (chars "x"),
      move_path := some (chars "b") }
    (chars "x") (chars "b") rfl rfl rfl (by decide) (by decide)).1 (by decide)
  have h1 := h.1 rfl
  exact ⟨by simpa using h1.1, by simpa using h1.2.1 rfl⟩

/-- The status vocabulary of `apply_commit` (`"Moved to X"` and
`"Error: …"` being families). -/
def validStatus (s : Str) : Bool :=
  decide (s = chars "Added") || decide (s = chars "Updated") ||
  decide (s = chars "Deleted") || decide (s = chars "Deleted (or already missing)") ||
  (chars "Moved to ").isPrefixOf s || (chars "Error: ").isPrefixOf s

theorem mem_dset {m : List (Str × Str)} {k v : Str} {pr : Str × Str}
    (h : pr ∈ dset m k v) : pr ∈ m ∨ pr = (k, v) := by
  unfold dset at h
  split at h
  · obtain ⟨q, hq, hfq⟩ := List.mem_map.mp h
    by_cases hqk : q.1 = k
    · right; rw [if_pos hqk] at hfq; exact hfq.symm
    · left; rw [if_neg hqk] at hfq; rw [← hfq]; exact hq
  · rcases List.mem_append.mp h with h | h
    · left; exact h
    · right; simpa using h

theorem validRes_dset {m : List (Str × Str)} {k v : Str}
    (hm : ∀ pr ∈ m, validStatus pr.2 = true) (hv : validStatus v = true) :
    ∀ pr ∈ dset m k v, validStatus pr.2 = true := by
  intro pr hpr
  rcases mem_dset hpr with h | h
  · exact hm pr h
  · rw [h]; exact hv

theorem validStatus_of_error {s : Str} (h : (chars "Error: ").isPrefixOf s = true) :
    validStatus s = true := by simp [validStatus, h]

theorem validStatus_of_moved {s : Str} (h : (chars "Moved to ").isPrefixOf s = true) :
    validStatus s = true := by simp [validStatus, h]

theorem deleteStep_valid (rfn : Str → CallResult) (st : AState) (pc : Str × FileChange)
    (h : ∀ pr ∈ st.results, validStatus pr.2 = true) :
    ∀ pr ∈ (deleteStep rfn st pc).results, validStatus pr.2 = true := by
  unfold deleteStep
  dsimp only
  repeat' split
  all_goals first
    | exact h
    | (apply validRes_dset h; decide)
    | (apply validRes_dset h; apply validStatus_of_error; apply isPrefixOf_append_of; decide)

theorem updateStep_valid (wfn : Str → Str → CallResult) (rfn : Str → CallResult)
    (st : AState) (pc : Str × FileChange)
    (h : ∀ pr ∈ st.results, validStatus pr.2 = true) :
    ∀ pr ∈ (updateStep wfn rfn st pc).results, validStatus pr.2 = true := by
  unfold updateStep
  dsimp only
  repeat' split
  all_goals first
    | exact h
    | (apply validRes_dset h; decide)
    | (apply validRes_dset h; apply validStatus_of_error; apply isPrefixOf_append_of; decide)
    | (apply validRes_dset h; apply validStatus_of_moved; apply isPrefixOf_append_of; decide)

theorem addStep_valid (wfn : Str → Str → CallResult) (st : AState) (pc : Str × FileChange)
    (h : ∀ pr ∈ st.results, validStatus pr.2 = true) :
    ∀ pr ∈ (addStep wfn st pc).results, validStatus pr.2 = true := by
  unfold addStep
  dsimp only
  repeat' split
  all_goals first
    | exact h
    | (apply validRes_dset h; decide)
    | (apply validRes_dset h; apply validStatus_of_error; apply isPrefixOf_append_of; decide)

theorem foldl_preserve_mem {σ α : Type _} (Inv : σ → Prop) (f : σ → α → σ) :
    ∀ (l : List α) (s : σ), Inv s → (∀ s' a, a ∈ l → Inv s' → Inv (f s' a)) →
      Inv (l.foldl f s) := by
  intro l
  induction l with
  | nil => exact fun s h _ => h
  | cons a as ih =>
    intro s h hstep
    exact ih _ (hstep s a (List.mem_cons_self _ _) h)
      (fun s' b hb => hstep s' b (List.mem_cons_of_mem _ hb))

theorem dset_keys_mono {m : List (Str × Str)} {k v a : Str}
    (h : a ∈ m.map Prod.fst) : a ∈ (dset m k v).map Prod.fst := by
  unfold dset
  split
  · rw [List.map_map]
    obtain ⟨p, hp, hpa⟩ := List.mem_map.mp h
    apply List.mem_map.mpr
    refine ⟨p, hp, ?_⟩
    by_cases hpk : p.1 = k
    · simp only [Function.comp_apply, if_pos hpk]
      rw [← hpa, hpk]
    · simp only [Function.comp_apply, if_neg hpk]
      exact hpa
  · rw [List.map_append]
    exact List.mem_append.mpr (Or.inl h)

theorem dset_key_self (m : List (Str × Str)) (k v : Str) :
    k ∈ (dset m k v).map Prod.fst := by
  unfold dset
  split
  · next hany =>
    obtain ⟨p, hp, hpk⟩ := List.any_eq_true.mp hany
    rw [List.map_map]
    apply List.mem_map.mpr
    refine ⟨p, hp, ?_⟩
    have hk : p.1 = k := of_decide_eq_true hpk
    simp only [Function.comp_apply, if_pos hk]
  · rw [List.map_append]
    exact List.mem_append.mpr (Or.inr (by simp))

theorem deleteStep_keys_mono (rfn : Str → CallResult) (st : AState) (pc : Str × FileChange)
    {a : Str} (h : a ∈ st.results.map Prod.fst) :
    a ∈ (deleteStep rfn st pc).results.map Prod.fst := by
  unfold deleteStep
  dsimp only
  repeat' split
  all_goals first | exact h | exact dset_keys_mono h

theorem updateStep_keys_mono (wfn : Str → Str → CallResult) (rfn : Str → CallResult)
    (st : AState) (pc : Str × FileChange) {a : Str} (h : a ∈ st.results.map Prod.fst) :
    a ∈ (updateStep wfn rfn st pc).results.map Prod.fst := by
  unfold updateStep
  dsimp only
  repeat' split
  all_goals first | exact h | exact dset_keys_mono h

theorem addStep_keys_mono (wfn : Str → Str → CallResult) (st : AState)
    (pc : Str × FileChange) {a : Str} (h : a ∈ st.results.map Prod.fst) :
    a ∈ (addStep wfn st pc).results.map Prod.fst := by
  unfold addStep
  dsimp only
  repeat' split
  all_goals first | exact h | exact dset_keys_mono h

theorem deleteStep_covers (rfn : Str → CallResult) (st : AState) (pc : Str × FileChange)
    (h : pc.2.type = ActionType.delete) :
    pc.1 ∈ (deleteStep rfn st pc).results.map Prod.fst := by
  unfold deleteStep
  dsimp only
  rw [if_pos h]
  repeat' split
  all_goals exact dset_key_self _ _ _

theorem updateStep_covers (wfn : Str → Str → CallResult) (rfn : Str → CallResult)
    (st : AState) (pc : Str × FileChange) (h : pc.2.type = ActionType.update) :
    pc.1 ∈ (updateStep wfn rfn st pc).results.map Prod.fst := by
  unfold updateStep
  dsimp only
  rw [if_pos h]
  repeat' split
  all_goals exact dset_key_self _ _ _

theorem addStep_covers (wfn : Str → Str → CallResult) (st : AState) (pc : Str × FileChange) :
    pc.1 ∈ (addStep wfn st pc).results.map Prod.fst := by
  unfold addStep
  dsimp only
  repeat' split
  all_goals exact dset_key_self _ _ _

theorem foldl_covers {step : AState → (Str × FileChange) → AState}
    (Cond : Str × FileChange → Prop)
    (hmono : ∀ st pc {a}, a ∈ st.results.map Prod.fst → a ∈ (step st pc).results.map Prod.fst)
    (hcov : ∀ st pc, Cond pc → pc.1 ∈ (step st pc).results.map Prod.fst) :
    ∀ (l : List (Str × FileChange)) (st : AState) (pc : Str × FileChange),
      pc ∈ l → Cond pc → pc.1 ∈ (l.foldl step st).results.map Prod.fst := by
  intro l
  induction l with
  | nil => intro st pc h; exact absurd h (by simp)
  | cons q qs ih =>
    intro st pc hpc hcond
    rcases List.mem_cons.mp hpc with rfl | htail
    · exact foldl_preserve_mem (fun s => pc.1 ∈ s.results.map Prod.fst) step qs _
        (hcov st pc hcond) (fun s' a _ hin => hmono s' a hin)
    · exact ih _ pc htail hcond

theorem deleteStep_changes_sublist (rfn : Str → CallResult) (st : AState)
    (pc : Str × FileChange) : (deleteStep rfn st pc).changes.Sublist st.changes := by
  unfold deleteStep
  dsimp only
  repeat' split
  all_goals first | exact List.Sublist.refl _ | exact List.filter_sublist _

theorem updateStep_changes_sublist (wfn : Str → Str → CallResult) (rfn : Str → CallResult)
    (st : AState) (pc : Str × FileChange) :
    (updateStep wfn rfn st pc).changes.Sublist st.changes := by
  unfold updateStep
  dsimp only
  repeat' split
  all_goals first | exact List.Sublist.refl _ | exact List.filter_sublist _

theorem addStep_changes (wfn : Str → Str → CallResult) (st : AState) (pc : Str × FileChange) :
    (addStep wfn st pc).changes = st.changes := by
  unfold addStep
  dsimp only
  repeat' split
  all_goals rfl

theorem applyDeletes_changes_sublist (rfn : Str → CallResult) (st : AState) :
    (applyDeletes rfn st).changes.Sublist st.changes :=
  foldl_preserve_mem (fun s => s.changes.Sublist st.changes) _ st.changes st
    (List.Sublist.refl _)
    (fun s' a _ hs => (deleteStep_changes_sublist rfn s' a).trans hs)

theorem applyUpdates_changes_sublist (wfn : Str → Str → CallResult) (rfn : Str → CallResult)
    (st : AState) : (applyUpdates wfn rfn st).changes.Sublist st.changes :=
  foldl_preserve_mem (fun s => s.changes.Sublist st.changes) _ st.changes st
    (List.Sublist.refl _)
    (fun s' a _ hs => (updateStep_changes_sublist wfn rfn s' a).trans hs)

theorem foldl_addStep_changes (wfn : Str → Str → CallResult) :
    ∀ (l : List (Str × FileChange)) (st : AState),
      (l.foldl (addStep wfn) st).changes = st.changes := by
  intro l
  induction l with
  | nil => intro st; rfl
  | cons q qs ih => intro st; rw [List.foldl_cons, ih, addStep_changes]

theorem applyAdds_changes (wfn : Str → Str → CallResult) (st : AState) :
    (applyAdds wfn st).changes = st.changes :=
  foldl_addStep_changes wfn st.changes st

theorem deleteStep_keeps (rfn : Str → CallResult) (st : AState) (q pc : Str × FileChange)
    (hin : pc ∈ st.changes) (h : pc.1 ≠ q.1 ∨ ¬ q.2.type = ActionType.delete) :
    pc ∈ (deleteStep rfn st q).changes := by
  unfold deleteStep
  dsimp only
  split
  · next ht =>
    have hne : pc.1 ≠ q.1 := h.resolve_right (fun hc => hc ht)
    repeat' split
    all_goals exact List.mem_filter.mpr ⟨hin, by simpa using hne⟩
  · exact hin

theorem updateStep_keeps (wfn : Str → Str → CallResult) (rfn : Str → CallResult)
    (st : AState) (q pc : Str × FileChange)
    (hin : pc ∈ st.changes) (h : pc.1 ≠ q.1 ∨ ¬ q.2.type = ActionType.update) :
    pc ∈ (updateStep wfn rfn st q).changes := by
  unfold updateStep
  dsimp only
  split
  · next ht =>
    have hne : pc.1 ≠ q.1 := h.resolve_right (fun hc => hc ht)
    repeat' split
    all_goals first
      | exact hin
      | exact List.mem_filter.mpr ⟨hin, by simpa using hne⟩
  · exact hin

theorem eraseKey_not_key (m : List (Str × FileChange)) (k : Str) :
    k ∉ (eraseKey m k).map Prod.fst := by
  intro h
  obtain ⟨p, hp, hpk⟩ := List.mem_map.mp h
  have hf := (List.mem_filter.mp hp).2
  exact (of_decide_eq_true hf) hpk

theorem keys_not_mem_sublist {l m : List (Str × FileChange)} {k : Str} (hs : l.Sublist m)
    (h : k ∉ m.map Prod.fst) : k ∉ l.map Prod.fst :=
  fun hc => h ((hs.map Prod.fst).subset hc)

theorem foldl_delete_removes (rfn : Str → CallResult) :
    ∀ (l : List (Str × FileChange)) (st : AState) (pc : Str × FileChange),
      pc ∈ l → pc.2.type = ActionType.delete →
      pc.1 ∉ ((l.foldl (deleteStep rfn) st).changes.map Prod.fst) := by
  intro l
  induction l with
  | nil => intro st pc h; exact absurd h (by simp)
  | cons q qs ih =>
    intro st pc hpc ht
    rcases List.mem_cons.mp hpc with rfl | htail
    · refine foldl_preserve_mem (fun s => pc.1 ∉ s.changes.map Prod.fst) (deleteStep rfn) qs _
        ?_ (fun s' a _ hinv => keys_not_mem_sublist (deleteStep_changes_sublist rfn s' a) hinv)
      show pc.1 ∉ (deleteStep rfn st pc).changes.map Prod.fst
      unfold deleteStep
      dsimp only
      rw [if_pos ht]
      repeat' split
      all_goals exact eraseKey_not_key _ _
    · exact ih _ pc htail ht

theorem keys_nodup_entry {l : List (Str × FileChange)} (hnd : (l.map Prod.fst).Nodup)
    {p q : Str × FileChange} (hp : p ∈ l) (hq : q ∈ l) (hk : p.1 = q.1) : p = q := by
  induction l with
  | nil => exact absurd hp (by simp)
  | cons x xs ih =>
    simp only [List.map_cons, List.nodup_cons] at hnd
    rcases List.mem_cons.mp hp with rfl | hp' <;> rcases List.mem_cons.mp hq with rfl | hq'
    · rfl
    · exact absurd (List.mem_map.mpr ⟨q, hq', hk.symm⟩) hnd.1
    · exact absurd (List.mem_map.mpr ⟨p, hp', hk⟩) hnd.1
    · exact ih hnd.2 hp' hq'

theorem dlookup_map_setk (m : List (Str × Str)) (k v a : Str) (hne : ¬ a = k) :
    dlookup (m.map (fun p => if p.1 = k then (k, v) else p)) a = dlookup m a := by
  induction m with
  | nil => rfl
  | cons p rest ih =>
    rw [List.map_cons]
    by_cases hpk : p.1 = k
    · rw [if_pos hpk]
      simp only [dlookup]
      rw [if_neg (fun hc => hne hc.symm), if_neg (fun hc => hne (hpk ▸ hc).symm)]
      exact ih
    · rw [if_neg hpk]
      simp only [dlookup]
      split <;> first | rfl | exact ih

theorem dlookup_append_single (m : List (Str × Str)) (k v a : Str) (hne : ¬ a = k) :
    dlookup (m ++ [(k, v)]) a = dlookup m a := by
  induction m with
  | nil =>
    simp only [List.nil_append, dlookup]
    rw [if_neg (fun hc => hne hc.symm)]
  | cons p rest ih =>
    simp only [List.cons_append, dlookup]
    split <;> first | rfl | exact ih

theorem dlookup_dset_ne {m : List (Str × Str)} {k v a : Str} (hne : ¬ a = k) :
    dlookup (dset m k v) a = dlookup m a := by
  unfold dset
  split
  · exact dlookup_map_setk m k v a hne
  · exact dlookup_append_single m k v a hne

theorem addStep_lookup_ne (wfn : Str → Str → CallResult) (st : AState)
    (q : Str × FileChange) {a : Str} (hne : ¬ a = q.1) :
    dlookup (addStep wfn st q).results a = dlookup st.results a := by
  unfold addStep
  dsimp only
  repeat' split
  all_goals first | rfl | exact dlookup_dset_ne hne

theorem foldl_add_error (wfn : Str → Str → CallResult) :
    ∀ (l : List (Str × FileChange)) (st : AState) (pc : Str × FileChange),
      (l.map Prod.fst).Nodup → pc ∈ l → ¬ pc.2.type = ActionType.add →
      ∃ msg, dlookup ((l.foldl (addStep wfn) st).results) pc.1 = some msg ∧
        (chars "Error: ").isPrefixOf msg = true := by
  intro l
  induction l with
  | nil => intro st pc _ h; exact absurd h (by simp)
  | cons q qs ih =>
    intro st pc hnd hpc ht
    simp only [List.map_cons, List.nodup_cons] at hnd
    rcases List.mem_cons.mp hpc with rfl | htail
    · refine foldl_preserve_mem
        (fun s => ∃ msg, dlookup s.results pc.1 = some msg ∧
          (chars "Error: ").isPrefixOf msg = true) (addStep wfn) qs _ ?_ ?_
      · refine ⟨chars "Error: Unhandled change type", ?_, by decide⟩
        show dlookup (addStep wfn st pc).results pc.1 = _
        unfold addStep
        dsimp only
        rw [if_neg ht]
        exact dlookup_dset _ _ _
      · rintro s' a ha ⟨msg, hm1, hm2⟩
        have hne : ¬ pc.1 = a.1 := fun hc => hnd.1 (hc ▸ List.mem_map.mpr ⟨a, ha, rfl⟩)
        exact ⟨msg, (addStep_lookup_ne wfn s' a hne).trans hm1, hm2⟩
    · exact ih _ pc hnd.2 htail ht

theorem applyDeletes_valid (rfn : Str → CallResult) (st : AState)
    (h : ∀ pr ∈ st.results, validStatus pr.2 = true) :
    ∀ pr ∈ (applyDeletes rfn st).results, validStatus pr.2 = true :=
  foldl_preserve_mem (fun s => ∀ pr ∈ s.results, validStatus pr.2 = true) _ st.changes st h
    (fun s a _ hi => deleteStep_valid rfn s a hi)

theorem applyUpdates_valid (wfn : Str → Str → CallResult) (rfn : Str → CallResult)
    (st : AState) (h : ∀ pr ∈ st.results, validStatus pr.2 = true) :
    ∀ pr ∈ (applyUpdates wfn rfn st).results, validStatus pr.2 = true :=
  foldl_preserve_mem (fun s => ∀ pr ∈ s.results, validStatus pr.2 = true) _ st.changes st h
    (fun s a _ hi => updateStep_valid wfn rfn s a hi)

theorem applyAdds_valid (wfn : Str → Str → CallResult) (st : AState)
    (h : ∀ pr ∈ st.results, validStatus pr.2 = true) :
    ∀ pr ∈ (applyAdds wfn st).results, validStatus pr.2 = true :=
  foldl_preserve_mem (fun s => ∀ pr ∈ s.results, validStatus pr.2 = true) _ st.changes st h
    (fun s a _ hi => addStep_valid wfn s a hi)

theorem applyUpdates_keys_mono (wfn : Str → Str → CallResult) (rfn : Str → CallResult)
    (st : AState) {a : Str} (h : a ∈ st.results.map Prod.fst) :
    a ∈ (applyUpdates wfn rfn st).results.map Prod.fst :=
  foldl_preserve_mem (fun s => a ∈ s.results.map Prod.fst) _ st.changes st h
    (fun s q _ hi => updateStep_keys_mono wfn rfn s q hi)

theorem applyAdds_keys_mono (wfn : Str → Str → CallResult) (st : AState) {a : Str}
    (h : a ∈ st.results.map Prod.fst) :
    a ∈ (applyAdds wfn st).results.map Prod.fst :=
  foldl_preserve_mem (fun s => a ∈ s.results.map Prod.fst) _ st.changes st h
    (fun s q _ hi => addStep_keys_mono wfn s q hi)

/--
C6: for every commit with unique paths and every behaviour of the injected
write/remove callbacks (returning `false` or raising), `apply_commit`
completes without raising: every status value is `"Added"`, `"Updated"`,
`"Deleted"`, `"Deleted (or already missing)"`, a `"Moved to X"`, or an
`"Error: …"` entry, and every file of the commit receives a status (the
remaining files are still processed after a per-file failure).
-/
theorem claim_C6_failure_isolation (commit : Commit) (wfn : Str → Str → CallResult)
    (rfn : Str → CallResult) (hnd : (commit.changes.map Prod.fst).Nodup) :
    (∀ pr ∈ (apply_commit commit wfn rfn).results, validStatus pr.2 = true) ∧
    (∀ pc ∈ commit.changes, pc.1 ∈ (apply_commit commit wfn rfn).results.map Prod.fst) := by
  constructor
  · exact applyAdds_valid wfn _
      (applyUpdates_valid wfn rfn _
        (applyDeletes_valid rfn _ (fun pr hpr => absurd hpr (List.not_mem_nil _))))
  · intro pc hpc
    have hdel_keep :
        (¬ pc.2.type = ActionType.delete) →
          pc ∈ (applyDeletes rfn { changes := commit.changes }).changes := by
      intro hty
      unfold applyDeletes
      refine foldl_preserve_mem (fun s : AState => pc ∈ s.changes) _ _ _ hpc ?_
      intro s' q hq hin
      apply deleteStep_keeps rfn s' q pc hin
      by_cases hqd : q.2.type = ActionType.delete
      · left
        intro hk
        have heq := keys_nodup_entry hnd hpc hq hk
        exact hty (heq ▸ hqd)
      · right; exact hqd
    cases htype : pc.2.type with
    | delete =>
      apply applyAdds_keys_mono wfn
      apply applyUpdates_keys_mono wfn rfn
      exact foldl_covers (fun q => q.2.type = ActionType.delete)
        (fun st q {a} h => deleteStep_keys_mono rfn st q h)
        (fun st q h => deleteStep_covers rfn st q h)
        commit.changes { changes := commit.changes } pc hpc htype
    | update =>
      apply applyAdds_keys_mono wfn
      have hin1 := hdel_keep (by rw [htype]; intro h; cases h)
      exact foldl_covers (fun q => q.2.type = ActionType.update)
        (fun st q {a} h => updateStep_keys_mono wfn rfn st q h)
        (fun st q h => updateStep_covers wfn rfn st q h)
        _ _ pc hin1 htype
    | add =>
      have hin1 := hdel_keep (by rw [htype]; intro h; cases h)
      have hnd1 : ((applyDeletes rfn { changes := commit.changes }).changes.map
          Prod.fst).Nodup :=
        ((applyDeletes_changes_sublist rfn _).map Prod.fst).nodup hnd
      have hin2 : pc ∈ (applyUpdates wfn rfn
          (applyDeletes rfn { changes := commit.changes })).changes := by
        unfold applyUpdates
        refine foldl_preserve_mem (fun s : AState => pc ∈ s.changes) _ _ _ hin1 ?_
        intro s' q hq hin
        apply updateStep_keeps wfn rfn s' q pc hin
        by_cases hqd : q.2.type = ActionType.update
        · left
          intro hk
          have heq := keys_nodup_entry hnd1 hin1 hq hk
          rw [heq] at htype
          rw [htype] at hqd
          cases hqd
        · right; exact hqd
      exact foldl_covers (fun _ => True)
        (fun st q {a} h => addStep_keys_mono wfn st q h)
        (fun st q _ => addStep_covers wfn st q)
        _ _ pc hin2 trivial

/-- Witness for C6 at a concrete commit whose remove callback raises. -/
theorem claim_C6_failure_isolation_witness :
    (∀ pr ∈ (apply_commit ⟨[(chars "d", { type := ActionType.delete })]⟩ wAlwaysOk
        (fun _ => CallResult.exn (chars "boom"))).results, validStatus pr.2 = true) ∧
    (∀ pc ∈ ([(chars "d", ({ type := ActionType.delete } : FileChange))] :
        List (Str × FileChange)),
      pc.1 ∈ (apply_commit ⟨[(chars "d", { type := ActionType.delete })]⟩ wAlwaysOk
        (fun _ => CallResult.exn (chars "boom"))).results.map Prod.fst) :=
  claim_C6_failure_isolation ⟨[(chars "d", { type := ActionType.delete })]⟩ wAlwaysOk
    (fun _ => CallResult.exn (chars "boom")) (by decide)

/--
C10 (counterexample): two Updates moving to the same target, with callbacks
that always succeed.  The second Update fails the target-conflict check,
whose `continue` skips the `del commit.changes[path]`, so after `apply_commit`
the caller's Commit still contains that Update entry — not only Add entries.
-/
theorem claim_C10_counterexample :
    (apply_commit
        ⟨[(chars "a",
          { type := ActionType.update, new_content := some (chars "x"),
            move_path := some (chars "t") }),
          (chars "c",
          { type := ActionType.update, new_content := some (chars "y"),
            move_path := some (chars "t") })]⟩ wAlwaysOk rAlwaysOk).changes =
      [(chars "c",
        { type := ActionType.update, new_content := some (chars "y"),
          move_path := some (chars "t") })] ∧
    ActionType.update ≠ ActionType.add := by decide

/--
C10 (amended): `apply_commit` mutates the Commit passed to it: the final
`changes` dict is a sub-dict of the original; every Delete entry is removed;
every Add entry remains; an Update entry survives only when its processing
stopped at an early error path, in which case its final status is an
`"Error: …"` entry — so the input Commit is not treated as read-only, but
error-stopped Update entries remain alongside the Add entries.
-/
theorem claim_C10_commit_mutation (commit : Commit) (wfn : Str → Str → CallResult)
    (rfn : Str → CallResult) (hnd : (commit.changes.map Prod.fst).Nodup) :
    ((apply_commit commit wfn rfn).changes.Sublist commit.changes) ∧
    (∀ pc ∈ (apply_commit commit wfn rfn).changes, ¬ pc.2.type = ActionType.delete) ∧
    (∀ pc ∈ commit.changes, pc.2.type = ActionType.add →
      pc ∈ (apply_commit commit wfn rfn).changes) ∧
    (∀ pc ∈ (apply_commit commit wfn rfn).changes, pc.2.type = ActionType.update →
      ∃ msg, dlookup (apply_commit commit wfn rfn).results pc.1 = some msg ∧
        (chars "Error: ").isPrefixOf msg = true) := by
  have hfinal : (apply_commit commit wfn rfn).changes =
      (applyUpdates wfn rfn (applyDeletes rfn { changes := commit.changes })).changes :=
    applyAdds_changes wfn _
  have hsub2 : (applyUpdates wfn rfn
      (applyDeletes rfn { changes := commit.changes })).changes.Sublist commit.changes :=
    (applyUpdates_changes_sublist wfn rfn _).trans (applyDeletes_changes_sublist rfn _)
  have hsub : (apply_commit commit wfn rfn).changes.Sublist commit.changes :=
    hfinal ▸ hsub2
  refine ⟨hsub, ?_, ?_, ?_⟩
  · intro pc hpc hdel
    have hpc1 : pc ∈ (applyUpdates wfn rfn
        (applyDeletes rfn { changes := commit.changes })).changes := hfinal ▸ hpc
    have hpc2 : pc ∈ (applyDeletes rfn { changes := commit.changes }).changes :=
      (applyUpdates_changes_sublist wfn rfn _).subset hpc1
    have hpcc : pc ∈ commit.changes := hsub.subset hpc
    have hnot := foldl_delete_removes rfn commit.changes { changes := commit.changes } pc
      hpcc hdel
    exact hnot (List.mem_map.mpr ⟨pc, hpc2, rfl⟩)
  · intro pc hpc htype
    have hin1 : pc ∈ (applyDeletes rfn { changes := commit.changes }).changes := by
      unfold applyDeletes
      refine foldl_preserve_mem (fun s : AState => pc ∈ s.changes) _ _ _ hpc ?_
      intro s' q hq hin
      apply deleteStep_keeps rfn s' q pc hin
      by_cases hqd : q.2.type = ActionType.delete
      · left
        intro hk
        have heq := keys_nodup_entry hnd hpc hq hk
        rw [heq] at htype
        rw [htype] at hqd
        cases hqd
      · right; exact hqd
    have hnd1 : ((applyDeletes rfn { changes := commit.changes }).changes.map
        Prod.fst).Nodup :=
      ((applyDeletes_changes_sublist rfn _).map Prod.fst).nodup hnd
    have hin2 : pc ∈ (applyUpdates wfn rfn
        (applyDeletes rfn { changes := commit.changes })).changes := by
      unfold applyUpdates
      refine foldl_preserve_mem (fun s : AState => pc ∈ s.changes) _ _ _ hin1 ?_
      intro s' q hq hin
      apply updateStep_keeps wfn rfn s' q pc hin
      by_cases hqd : q.2.type = ActionType.update
      · left
        intro hk
        have heq := keys_nodup_entry hnd1 hin1 hq hk
        rw [heq] at htype
        rw [htype] at hqd
        cases hqd
      · right; exact hqd
    exact hfinal ▸ hin2
  · intro pc hpc htype
    have hpc1 : pc ∈ (applyUpdates wfn rfn
        (applyDeletes rfn { changes := commit.changes })).changes := hfinal ▸ hpc
    have hnd2 : ((applyUpdates wfn rfn
        (applyDeletes rfn { changes := commit.changes })).changes.map Prod.fst).Nodup :=
      (hsub2.map Prod.fst).nodup hnd
    exact foldl_add_error wfn _ _ pc hnd2 hpc1 (by rw [htype]; intro h; cases h)

/-- Witness for C10 (amended) at a concrete commit holding a Delete and an
Add, with always-succeeding callbacks. -/
theorem claim_C10_commit_mutation_witness :
    ((apply_commit
      ⟨[(chars "d", { type := ActionType.delete }),
        (chars "n", { type := ActionType.add, new_content := some (chars "z") })]⟩
      wAlwaysOk rAlwaysOk).changes.Sublist
        [(chars "d", { type := ActionType.delete }),
          (chars "n", { type := ActionType.add, new_content := some (chars "z") })]) ∧
    (∀ pc ∈ (apply_commit
      ⟨[(chars "d", { type := ActionType.delete }),
        (chars "n", { type := ActionType.add, new_content := some (chars "z") })]⟩
      wAlwaysOk rAlwaysOk).changes, ¬ pc.2.type = ActionType.delete) :=
  have h := claim_C10_commit_mutation
    ⟨[(chars "d", { type := ActionType.delete }),
      (chars "n", { type := ActionType.add, new_content := some (chars "z") })]⟩
    wAlwaysOk rAlwaysOk (by decide)
  ⟨h.1, h.2.1⟩

end PatchTool
